import Mathlib

/-!
Verification of the aibox container/slot orchestration core.

This file gives a shallow embedding of the slot store (`aibox/containers/slot.py`),
the volume isolation policy (`aibox/containers/volumes.py`), the image build/cache
planner of the orchestrator (`aibox/containers/orchestrator.py` together with
`aibox/containers/manager.py`), and the base Dockerfile generator
(`aibox/profiles/generator.py`), and proves or refutes the specified properties.

The on-disk slot store `<storage>/slots/` is modelled as a list of `slot-<n>`
directories, each holding an optional `metadata.yml` file plus opaque further
payload (provider config subdirectories).  A metadata file either parses with
`yaml.safe_load` to a non-empty record (`SlotFile.good r`) or it does not
(`SlotFile.bad`, covering both YAML errors and empty documents, which
`SlotConfig.load` treats alike).  A real slots directory never contains two
directories of the same name, so stores with duplicate slot numbers are ruled
out by a `keysNodup` hypothesis where it matters.
-/

namespace Aibox

/-- The four fields of a slot `metadata.yml` record (`SlotConfig.save`). -/
structure SlotRecord where
  ai_provider : String
  container_name : String
  created_at : String
  last_used : String
deriving DecidableEq, Repr

/-- Content of a `metadata.yml` file: either it parses with `yaml.safe_load` to a
non-empty record, or it is unparsable/empty (`SlotConfig.load` returns `None`
for both, see slot.py lines 72-80). -/
inductive SlotFile where
  | good (r : SlotRecord)
  | bad
deriving DecidableEq, Repr

/-- A `slot-<n>` directory: the optional metadata file plus the rest of the
slot-scoped content (provider config subdirectories), which the code moves and
deletes together with the metadata. -/
structure SlotDir where
  metadata : Option SlotFile
  payload : List String
deriving DecidableEq, Repr

/-- The `<storage>/slots/` directory: a finite collection of `slot-<n>`
directories, keyed by the slot number `n`. -/
structure SlotStore where
  dirs : List (Nat × SlotDir)
deriving DecidableEq, Repr

/-- Directory lookup by slot number (filesystem path resolution). -/
def SlotStore.dirOf (s : SlotStore) (n : Nat) : Option SlotDir :=
  (s.dirs.find? (fun e => e.1 == n)).map Prod.snd

/-- Keys (slot numbers) of the store. -/
def SlotStore.keys (s : SlotStore) : List Nat :=
  s.dirs.map Prod.fst

/-- A well-formed slots directory has distinct directory names. -/
def SlotStore.keysNodup (s : SlotStore) : Prop :=
  s.keys.Nodup

instance (s : SlotStore) : Decidable s.keysNodup := by
  unfold SlotStore.keysNodup; infer_instance

/-- The content of `slot-<n>/metadata.yml`, if that file exists. -/
def metadataFile (s : SlotStore) (n : Nat) : Option SlotFile :=
  (s.dirOf n).bind (·.metadata)

/-- Embedding of `SlotConfig.exists` (slot.py lines 36-43): the check is
`config_path.exists()`, i.e. mere presence of the metadata file. -/
def slotExists (s : SlotStore) (n : Nat) : Bool :=
  (metadataFile s n).isSome

/-- Outcome of `yaml.safe_load` plus the `data if data else None` guard. -/
def parseMeta : SlotFile → Option SlotRecord
  | .good r => some r
  | .bad => none

/-- Embedding of `SlotConfig.load` (slot.py lines 65-80): `None` when the file
is absent, unparsable, or empty; the parsed record otherwise. -/
def loadSlot (s : SlotStore) (n : Nat) : Option SlotRecord :=
  (metadataFile s n).bind parseMeta

/-- Embedding of `SlotConfig.save` (slot.py lines 45-63): `mkdir` the slot
directory if needed, then write a fresh record with the given provider and
container name and with `created_at`/`last_used` set to the two `now()`
timestamps taken inside `save` (modelled as the arguments `tc`, `tl`). -/
def saveSlot (s : SlotStore) (n : Nat) (p c tc tl : String) : SlotStore :=
  let r : SlotRecord := ⟨p, c, tc, tl⟩
  if (s.dirOf n).isSome then
    ⟨s.dirs.map (fun e => if e.1 = n then (e.1, { e.2 with metadata := some (.good r) }) else e)⟩
  else
    ⟨s.dirs ++ [(n, ⟨some (.good r), []⟩)]⟩

/-- Embedding of `SlotConfig.delete` (slot.py lines 111-121): remove the whole
slot directory if it exists. -/
def deleteSlot (s : SlotStore) (n : Nat) : SlotStore :=
  ⟨s.dirs.filter (fun e => !(e.1 == n))⟩

/-- Error taxonomy of `aibox/utils/errors.py`, restricted to the constructors
the embedded operations raise. -/
inductive AiboxErr where
  | noAvailableSlots
  | slotNotFound
  | dockerError
  | imageBuildError
deriving DecidableEq, Repr

/-- Embedding of `SlotManager.find_available_slot` (slot.py lines 139-160): scan
`range(start, max_slots + 1)` and return the first slot number whose
`SlotConfig.exists()` is false, raising `NoAvailableSlotsError` when the loop
finds none. -/
def findAvailableSlot (s : SlotStore) (maxSlots start : Nat) : Except AiboxErr Nat :=
  match (List.range' start (maxSlots + 1 - start)).find? (fun i => !slotExists s i) with
  | some i => .ok i
  | none => .error .noAvailableSlots

/-- Name of the directory backing slot `n`. -/
def slotDirName (n : Nat) : String :=
  "slot-" ++ toString n

/-- Lexicographic comparison of character lists by code point — Python's
string order. -/
def charListLe : List Char → List Char → Bool
  | [], _ => true
  | _ :: _, [] => false
  | a :: as, b :: bs =>
    if a.toNat < b.toNat then true
    else if b.toNat < a.toNat then false
    else charListLe as bs

/-- Python's `<=` on strings: lexicographic by code point. -/
def pyStrLe (a b : String) : Bool :=
  charListLe a.toList b.toList

/-- The same as a relation, for use with `List.insertionSort`. -/
def pyLe (a b : String) : Prop :=
  pyStrLe a b = true

instance : DecidableRel pyLe := fun a b => by
  unfold pyLe; infer_instance

/-- Unfolding characterization of `charListLe` on two conses. -/
def charListLeConsIff (a b : Char) (as bs : List Char) :
    charListLe (a :: as) (b :: bs) = true ↔
      a.toNat < b.toNat ∨ (a.toNat = b.toNat ∧ charListLe as bs = true) := by
  simp only [charListLe]
  rcases Nat.lt_trichotomy a.toNat b.toNat with h | h | h
  · simp [h]
  · simp [show ¬ a.toNat < b.toNat by omega, show ¬ b.toNat < a.toNat by omega, h]
  · simp [show ¬ a.toNat < b.toNat by omega, h]
    omega

instance : IsTotal String pyLe :=
  ⟨fun a b => by
    unfold pyLe pyStrLe
    have key : ∀ as bs : List Char, charListLe as bs = true ∨ charListLe bs as = true := by
      intro as
      induction as with
      | nil => intro bs; left; rfl
      | cons a as ih =>
        intro bs
        cases bs with
        | nil => right; rfl
        | cons b bs =>
          rw [charListLeConsIff, charListLeConsIff]
          rcases Nat.lt_trichotomy a.toNat b.toNat with h | h | h
          · left; exact Or.inl h
          · rcases ih bs with h2 | h2
            · left; exact Or.inr ⟨h, h2⟩
            · right; exact Or.inr ⟨h.symm, h2⟩
          · right; exact Or.inl h
    exact key a.toList b.toList⟩

instance : IsTrans String pyLe :=
  ⟨fun a b c => by
    unfold pyLe pyStrLe
    have key : ∀ as bs cs : List Char, charListLe as bs = true → charListLe bs cs = true →
        charListLe as cs = true := by
      intro as
      induction as with
      | nil => intro bs cs _ _; rfl
      | cons a as ih =>
        intro bs cs h1 h2
        cases bs with
        | nil => simp [charListLe] at h1
        | cons b bs =>
          cases cs with
          | nil => simp [charListLe] at h2
          | cons c cs =>
            rw [charListLeConsIff] at h1 h2 ⊢
            rcases h1 with h1 | ⟨h1e, h1r⟩
            · rcases h2 with h2 | ⟨h2e, _⟩
              · exact Or.inl (by omega)
              · exact Or.inl (by omega)
            · rcases h2 with h2 | ⟨h2e, h2r⟩
              · exact Or.inl (by omega)
              · exact Or.inr ⟨by omega, ih bs cs h1r h2r⟩
    exact key a.toList b.toList c.toList⟩

instance : IsAntisymm String pyLe :=
  ⟨fun a b => by
    unfold pyLe pyStrLe
    have key : ∀ as bs : List Char, charListLe as bs = true → charListLe bs as = true →
        as = bs := by
      intro as
      induction as with
      | nil =>
        intro bs _ h2
        cases bs with
        | nil => rfl
        | cons b bs => simp [charListLe] at h2
      | cons a as ih =>
        intro bs h1 h2
        cases bs with
        | nil => simp [charListLe] at h1
        | cons b bs =>
          rw [charListLeConsIff] at h1 h2
          rcases h1 with h1 | ⟨h1e, h1r⟩
          · rcases h2 with h2 | ⟨h2e, _⟩
            · omega
            · omega
          · rcases h2 with h2 | ⟨h2e, h2r⟩
            · omega
            · have hab : a = b := by
                have h2 : Char.ofNat a.toNat = Char.ofNat b.toNat := congrArg _ h1e
                rwa [Char.ofNat_toNat, Char.ofNat_toNat] at h2
              rw [hab, ih bs h1r h2r]
    intro h1 h2
    have key2 := key a.toList b.toList h1 h2
    cases a; cases b
    simpa [String.toList] using congrArg String.mk key2⟩

/-- Comparison used by `sorted(self.slots_dir.glob("slot-*"))` in
`SlotManager.list_slots`: paths sharing a parent compare by their final
component as strings, i.e. lexicographically by directory name (by code
point, as Python compares strings). -/
def byName (a b : Nat × SlotDir) : Prop :=
  pyLe (slotDirName a.1) (slotDirName b.1)

instance : DecidableRel byName := fun a b => by
  unfold byName; infer_instance

instance : IsTotal (Nat × SlotDir) byName :=
  ⟨fun a b => total_of pyLe (slotDirName a.1) (slotDirName b.1)⟩

instance : IsTrans (Nat × SlotDir) byName :=
  ⟨fun _ _ _ h h2 => Trans.trans (r := pyLe) (s := pyLe) h h2⟩

/-- Embedding of `SlotManager.list_slots` (slot.py lines 183-208): iterate over
the `slot-*` directories sorted by name, load each metadata record, keep the
parsable non-empty ones as `(slot number, record)` pairs, and skip the rest.
Python's sort is stable; on a filesystem listing names are distinct, so a
stable-sort model is interchangeable with `insertionSort`. -/
def listSlots (s : SlotStore) : List (Nat × SlotRecord) :=
  (s.dirs.insertionSort byName).filterMap
    (fun e => (e.2.metadata.bind parseMeta).map (fun r => (e.1, r)))

/-- Numeric order used by `sorted(slots, key=lambda s: s["slot"])` inside
`SlotManager.renumber_slots`. -/
def bySlotNum (a b : Nat × SlotRecord) : Prop :=
  a.1 ≤ b.1

instance : DecidableRel bySlotNum := fun a b => by
  unfold bySlotNum; infer_instance

instance : IsTotal (Nat × SlotRecord) bySlotNum :=
  ⟨fun a b => le_total a.1 b.1⟩

instance : IsTrans (Nat × SlotRecord) bySlotNum :=
  ⟨fun _ _ _ h h2 => le_trans h h2⟩

/-- The same numeric order on store directory entries (used only in proofs, to
name the entries in ascending slot order). -/
def byKeyNum (a b : Nat × SlotDir) : Prop :=
  a.1 ≤ b.1

instance : DecidableRel byKeyNum := fun a b => by
  unfold byKeyNum; infer_instance

instance : IsTotal (Nat × SlotDir) byKeyNum :=
  ⟨fun a b => le_total a.1 b.1⟩

instance : IsTrans (Nat × SlotDir) byKeyNum :=
  ⟨fun _ _ _ h h2 => le_trans h h2⟩

/-- Embedding of `shutil.move(old_slot.slot_dir, new_slot.slot_dir)` in
`renumber_slots`.  When the destination directory does not exist this renames
the source directory.  When it does exist, `shutil.move` places the source
*inside* the destination; the nested copy no longer backs a slot of its own, so
it is modelled as opaque payload of the destination directory.  (The second
branch is unreachable in the states `renumber_slots` actually visits.) -/
def moveDir (s : SlotStore) (old new : Nat) : SlotStore :=
  match s.dirOf old with
  | none => s
  | some d =>
    if (s.dirOf new).isSome then
      ⟨(s.dirs.filter (fun e => !(e.1 == old))).map
        (fun e =>
          if e.1 = new then (e.1, { e.2 with payload := e.2.payload ++ [slotDirName old] })
          else e)⟩
    else
      ⟨s.dirs.map (fun e => if e.1 = old then (new, d) else e)⟩

/-- Overwriting `slot-<n>/metadata.yml` via `config_path.write_text` (only
meaningful when the slot directory exists, which is where the code calls it). -/
def writeMeta (s : SlotStore) (n : Nat) (f : SlotFile) : SlotStore :=
  ⟨s.dirs.map (fun e => if e.1 = n then (e.1, { e.2 with metadata := some f }) else e)⟩

/-- One iteration of the `for new_slot_num, slot_data in enumerate(sorted_slots,
start=1)` loop of `SlotManager.renumber_slots` (slot.py lines 255-278). -/
def renumberStep (cur : SlotStore) (x : Nat × (Nat × SlotRecord)) : SlotStore :=
  let newNum := x.1
  let oldNum := x.2.1
  let rec0 := x.2.2
  if oldNum = newNum then cur
  else if (cur.dirOf oldNum).isSome then
    let moved := moveDir cur oldNum newNum
    match loadSlot moved newNum with
    | some r =>
        writeMeta moved newNum
          (.good { r with created_at := rec0.created_at, last_used := rec0.last_used })
    | none => moved
  else cur

/-- Embedding of `SlotManager.renumber_slots` (slot.py lines 235-278). -/
def renumberSlots (s : SlotStore) : SlotStore :=
  let slots := listSlots s
  if slots.isEmpty then s
  else
    let sortedSlots := slots.insertionSort bySlotNum
    (sortedSlots.enumFrom 1).foldl renumberStep s

/-- The record stored in a slot directory, when its metadata parses. -/
def recOfDir (d : SlotDir) : Option SlotRecord :=
  d.metadata.bind parseMeta

/-- Every slot directory of the store holds a metadata file that parses to a
non-empty record. -/
def allGood (s : SlotStore) : Prop :=
  ∀ e ∈ s.dirs, (recOfDir e.2).isSome

instance (s : SlotStore) : Decidable (allGood s) := by
  unfold allGood; infer_instance

/-! ## Volume isolation policy (`aibox/containers/volumes.py`) -/

/-- State of one host path, as far as `prepare_volumes` observes it:
absent, a directory (with its `os.access(..., W_OK)` answer and whether a
`chmod` on it would succeed), or a regular file (with its
`os.access(..., R_OK | W_OK)` answer and chmod success). -/
inductive PathState where
  | absent
  | dir (writable : Bool) (chmodOk : Bool)
  | file (rw : Bool) (chmodOk : Bool)
deriving DecidableEq, Repr

/-- Host filesystem, observed per path string. -/
structure FS where
  state : String → PathState

/-- Embedding of `Path.mkdir(parents=True, exist_ok=True)`: creates the path as
a writable directory when absent, otherwise leaves it alone.  (Created parent
directories are not observed by any claim and are not tracked.) -/
def FS.mkdirP (fs : FS) (p : String) : FS :=
  if fs.state p = .absent then
    ⟨fun q => if q = p then .dir true true else fs.state q⟩
  else fs

/-- Final path component (everything after the last slash). -/
def lastComponent (s : String) : String :=
  String.mk ((s.toList.reverse.takeWhile (fun c => !(c == '/'))).reverse)

/-- Embedding of the `host_path.suffix` test (volumes.py line 90): Python's
`PurePath.suffix` is non-empty iff the final component has a dot at an index
`i` with `0 < i < len(name) - 1` (taking the last dot).  The last dot sits at
reversed index `j` iff `i = len - 1 - j`, so the condition reads
`0 < j < len - 1`. -/
def pyHasSuffix (s : String) : Bool :=
  let name := (lastComponent s).toList
  match name.reverse.findIdx? (fun ch => ch == '.') with
  | none => false
  | some j => decide (0 < j) && decide (j < name.length - 1)

/-- A Docker volume mount value: bind target in the container and mode. -/
structure VolumeMount where
  bind : String
  mode : String
deriving DecidableEq, Repr

/-- Python dict assignment `volumes[k] = v`: replaces in place when the key is
present, appends otherwise (insertion order preserved). -/
def dictInsert (l : List (String × VolumeMount)) (k : String) (v : VolumeMount) :
    List (String × VolumeMount) :=
  if l.any (fun e => e.1 == k) then l.map (fun e => if e.1 = k then (e.1, v) else e)
  else l ++ [(k, v)]

/-- A custom mount from project configuration (`MountConfig`), with the source
path already `expanduser().resolve()`-ed. -/
structure MountConfig where
  source : String
  target : String
  mode : String
deriving DecidableEq, Repr

/-- One iteration of the `for path_name in mount_paths` loop of
`VolumeManager.prepare_volumes` (volumes.py lines 82-126).  The code first
creates missing directory-like paths (`continue`-ing on missing file-like
paths, i.e. those with a non-empty suffix), then re-checks existence, then
fixes permissions (skipping the path when `chmod` fails), and finally inserts
the mount.  A missing file-like path falls through the `continue` and the
existence re-check to the same skipped outcome, which the merged first `if`
below reflects. -/
def processMountPath (slotDir : String) (acc : FS × List (String × VolumeMount))
    (pathName : String) : FS × List (String × VolumeMount) :=
  let fs := acc.1
  let volumes := acc.2
  let hostPath := slotDir ++ "/" ++ pathName
  let containerPath := "/home/aibox/" ++ pathName
  let fs1 :=
    if fs.state hostPath = .absent ∧ ¬ pyHasSuffix hostPath then fs.mkdirP hostPath else fs
  match fs1.state hostPath with
  | .absent => (fs1, volumes)
  | .dir w ok =>
      if w then (fs1, dictInsert volumes hostPath ⟨containerPath, "rw"⟩)
      else if ok then
        (⟨fun q => if q = hostPath then .dir true ok else fs1.state q⟩,
          dictInsert volumes hostPath ⟨containerPath, "rw"⟩)
      else (fs1, volumes)
  | .file rw ok =>
      if rw then (fs1, dictInsert volumes hostPath ⟨containerPath, "rw"⟩)
      else if ok then
        (⟨fun q => if q = hostPath then .file true ok else fs1.state q⟩,
          dictInsert volumes hostPath ⟨containerPath, "rw"⟩)
      else (fs1, volumes)

/-- The per-slot directory `<home>/.aibox/projects/<storage>/slots/slot-<n>`. -/
def slotDirPath (home storageDir : String) (slotNumber : Nat) : String :=
  home ++ "/.aibox/projects/" ++ storageDir ++ "/slots/slot-" ++ toString slotNumber

/-- Embedding of `VolumeManager.prepare_volumes` (volumes.py lines 35-151):
workspace mount, slot directory creation, the per-path loop above, the Claude
`.claude/.claude.json` special case, and custom mounts.  The provider is given
by its `name` and its `get_mount_paths()` list. -/
def prepareVolumes (home storageDir projectDir : String) (slotNumber : Nat)
    (providerName : String) (mountPaths : List String)
    (customMounts : List MountConfig) (fs : FS) : FS × List (String × VolumeMount) :=
  let volumes0 : List (String × VolumeMount) := [(projectDir, ⟨"/workspace", "rw"⟩)]
  let slotDir := slotDirPath home storageDir slotNumber
  let fs0 := fs.mkdirP slotDir
  let acc := mountPaths.foldl (processMountPath slotDir) (fs0, volumes0)
  let fs1 := acc.1
  let volumes1 := acc.2
  let volumes2 :=
    if providerName = "claude" then
      let cj := slotDir ++ "/.claude/.claude.json"
      if fs1.state cj ≠ .absent then dictInsert volumes1 cj ⟨"/home/aibox/.claude.json", "rw"⟩
      else volumes1
    else volumes1
  let volumes3 := customMounts.foldl
    (fun vs m =>
      if m.mode = "ro" ∧ fs1.state m.source = .absent then vs
      else dictInsert vs m.source ⟨m.target, m.mode⟩)
    volumes2
  (fs1, volumes3)

/-! ## Container engine model (`aibox/containers/manager.py`) -/

/-- Observable engine actions performed by the embedded orchestrator code. -/
inductive DockerEvent where
  | builtImage (tag : String)
  | taggedImage (src tgt : String)
  | prunedDangling
  | stoppedContainer (name : String)
deriving DecidableEq, Repr

/-- Deterministic model of the Docker engine as seen through
`ContainerManager`: the set of existing image tags, whether a build
(`build_image`) succeeds for a tag and whether it actually produces the tag,
whether `tag_image` succeeds for a (source, target) pair, whether
`images.prune` succeeds, the set of existing containers, and whether stopping
a container succeeds. -/
structure Engine where
  images : List String
  buildOk : String → Bool
  buildProduces : String → Bool
  tagOk : String → String → Bool
  pruneOk : Bool
  containers : List String
  stopOk : String → Bool

/-- Embedding of `ContainerManager.image_exists`. -/
def Engine.imageExists (eng : Engine) (tag : String) : Bool :=
  eng.images.contains tag

/-- Embedding of `ContainerManager.build_image` (raises `ImageBuildError` on
failure; on success the engine may or may not end up with the requested tag,
which `_ensure_image_exists` double-checks). -/
def buildImage (eng : Engine) (tag : String) : Except AiboxErr (Engine × List DockerEvent) :=
  if eng.buildOk tag then
    .ok ({ eng with images := if eng.buildProduces tag then tag :: eng.images else eng.images },
      [.builtImage tag])
  else .error .imageBuildError

/-- Embedding of `ContainerManager.tag_image` (raises `DockerError` when the
source image is missing or the engine call fails). -/
def tagImage (eng : Engine) (src tgt : String) : Except AiboxErr (Engine × List DockerEvent) :=
  if eng.imageExists src && eng.tagOk src tgt then
    .ok ({ eng with images := tgt :: eng.images }, [.taggedImage src tgt])
  else .error .dockerError

/-- Embedding of `ContainerManager.prune_dangling_images` (manager.py lines
376-403): returns the prune result on success and raises `DockerError` when
the engine call fails — the failure is *not* swallowed by this method. -/
def pruneDanglingImages (eng : Engine) : Except AiboxErr (Engine × List DockerEvent) :=
  if eng.pruneOk then .ok (eng, [.prunedDangling]) else .error .dockerError

/-- Embedding of `ContainerOrchestrator._ensure_image_exists` (orchestrator.py
lines 330-388).  Returns the updated engine, whether a build occurred, and the
engine events, or the propagated error. -/
def ensureImageExists (eng : Engine) (tagHash tagLatest : String) :
    Except AiboxErr (Engine × Bool × List DockerEvent) :=
  if eng.imageExists tagHash then
    match tagImage eng tagHash tagLatest with
    | .ok (e, ev) => .ok (e, false, ev)
    | .error _ =>
      match buildImage eng tagHash with
      | .ok (e, ev) =>
        match tagImage e tagHash tagLatest with
        | .ok (e2, ev2) => .ok (e2, true, ev ++ ev2)
        | .error err => .error err
      | .error err => .error err
  else
    match buildImage eng tagHash with
    | .ok (e, ev) =>
      if e.imageExists tagHash then
        match tagImage e tagHash tagLatest with
        | .ok (e2, ev2) => .ok (e2, true, ev ++ ev2)
        | .error err => .error err
      else .error .imageBuildError
    | .error err => .error err

/-- Embedding of the image-provisioning segment of
`ContainerOrchestrator.start_container` (orchestrator.py lines 217-264):
ensure the base image, ensure the provider image, and — only when a provider
build occurred — call `prune_dangling_images`, whose call sits outside any
try/except in `start_container`. -/
def provisionImages (eng : Engine) (baseTagHash baseTagLatest provTagHash provTagLatest : String) :
    Except AiboxErr (Engine × Bool × List DockerEvent) :=
  match ensureImageExists eng baseTagHash baseTagLatest with
  | .error err => .error err
  | .ok (e1, _, ev1) =>
    match ensureImageExists e1 provTagHash provTagLatest with
    | .error err => .error err
    | .ok (e2, providerBuildOccurred, ev2) =>
      if providerBuildOccurred then
        match pruneDanglingImages e2 with
        | .error err => .error err
        | .ok (e3, ev3) => .ok (e3, providerBuildOccurred, ev1 ++ ev2 ++ ev3)
      else .ok (e2, providerBuildOccurred, ev1 ++ ev2)

/-- The deterministic container name `aibox-<project>-<slot>` used by
`start_container` (orchestrator.py line 284) and as the fallback in
`stop_container` (line 443). -/
def containerNameFor (projectName : String) (slotNumber : Nat) : String :=
  "aibox-" ++ projectName ++ "-" ++ toString slotNumber

/-- Embedding of `ContainerManager.stop_container` (raises `DockerError` when
the container does not exist or stopping fails). -/
def stopEngineContainer (eng : Engine) (name : String) :
    Except AiboxErr (Engine × List DockerEvent) :=
  if eng.containers.contains name && eng.stopOk name then
    .ok (eng, [.stoppedContainer name])
  else .error .dockerError

/-- Embedding of `ContainerOrchestrator.stop_container` (orchestrator.py lines
415-450): `get_slot` rejects slot numbers below 1, the bound container name is
read from the slot record (empty or missing falls back to the deterministic
name), the container is stopped, and the slot store is not written at all. -/
def stopContainerOp (s : SlotStore) (eng : Engine) (projectName : String) (slotNumber : Nat) :
    Except AiboxErr (SlotStore × Engine × List DockerEvent) :=
  if slotNumber < 1 then .error .slotNotFound
  else
    let bound := (loadSlot s slotNumber).bind
      (fun r => if r.container_name = "" then none else some r.container_name)
    let name := bound.getD (containerNameFor projectName slotNumber)
    match stopEngineContainer eng name with
    | .ok (e, ev) => .ok (s, e, ev)
    | .error err => .error err

/-! ## Dockerfile generation (`aibox/profiles/generator.py`)

Only the provider-agnostic base layer (`generate` with `ai_provider=None`) is
embedded; the provider-layer branch is not exercised by the base fingerprint
claims. -/

/-- The fields of `ProfileDefinition` (profiles/models.py) consumed by
`DockerfileGenerator.generate`.  `env_vars` is a Python dict and keeps
insertion order. -/
structure ProfileDefinition where
  name : String
  versions : List String
  default_version : String
  system_dependencies : List String
  env_vars : List (String × String)
  docker_layers : List String
  post_install : List String
deriving DecidableEq, Repr

/-- Python's `str.upper()` restricted to ASCII letters.  Profile names are
validated lowercase ASCII (`^[a-z0-9-]+$`, models.py line 53), where the two
agree. -/
def charUpper (c : Char) : Char :=
  if 97 ≤ c.toNat ∧ c.toNat ≤ 122 then Char.ofNat (c.toNat - 32) else c

/-- Model of Python `str.upper()` on the validated-ASCII strings it is applied
to. -/
def pyToUpper (s : String) : String :=
  String.mk (s.toList.map charUpper)

/-- Whether `p` is an initial segment of `l`. -/
def isInitialSegment : List Char → List Char → Bool
  | [], _ => true
  | _ :: _, [] => false
  | p :: ps, c :: cs => p == c && isInitialSegment ps cs

/-- Tail-recursive character-list length (kernel-reduction friendly). -/
def listLenChars (acc : Nat) : List Char → Nat
  | [] => acc
  | _ :: t => listLenChars (acc + 1) t

/-- Worker for `pyReplace`: scan left to right, replacing non-overlapping
occurrences, with fuel bounding the scan length. -/
def pyReplaceAux (old new : List Char) : Nat → List Char → List Char
  | 0, l => l
  | _ + 1, [] => []
  | fuel + 1, c :: cs =>
    if isInitialSegment old (c :: cs) then
      new ++ pyReplaceAux old new fuel ((c :: cs).drop old.length)
    else c :: pyReplaceAux old new fuel cs

/-- Python's `str.replace(old, new)`: replace every non-overlapping occurrence,
scanning left to right.  (The generator only uses non-empty patterns; the empty
pattern case follows Python's interspersing behavior.) -/
def pyReplace (s old new : String) : String :=
  if old.toList.isEmpty then
    String.mk (new.toList ++ (s.toList.map (fun c => c :: new.toList)).flatten)
  else
    String.mk (pyReplaceAux old.toList new.toList (listLenChars 0 s.toList) s.toList)

/-- Version placeholder substitution shared by
`get_env_vars_with_version` / `get_docker_layers_with_version` /
`get_post_install_with_version`: first replace every occurrence of the literal
placeholder for VERSION, then the profile-specific NAME_VERSION one. -/
def substVersion (profileName version s : String) : String :=
  pyReplace (pyReplace s ("$\x7bVERSION\x7d") version)
    ("$\x7b" ++ pyToUpper profileName ++ "_VERSION\x7d") version

/-- Python's `sorted` on a list of strings, ascending by code point; Mathlib's
insertion sort is stable, matching Python's sort on equal elements. -/
def pySortedStrings (l : List String) : List String :=
  l.insertionSort pyLe

/-- Python `sorted(set(...))`: deduplicate, then sort. -/
def pySortedDedup (l : List String) : List String :=
  pySortedStrings (l.foldl (fun acc d => if d ∈ acc then acc else acc ++ [d]) [])

/-- The apt package lines of `generate` (generator.py lines 87-91): every
package but the last continues the line, the last closes the `apt-get install`
command. -/
def aptLines : List String → List String
  | [] => []
  | [d] => ["    " ++ d ++ " && \\"]
  | d :: rest => ("    " ++ d ++ " \\") :: aptLines rest

/-- Embedding of `DockerfileGenerator._generate_profile_section`. -/
def generateProfileSection (profile : ProfileDefinition) (version : String) : List String :=
  ["# Install " ++ profile.name ++ " " ++ version]
    ++ profile.env_vars.map (fun kv => "ENV " ++ kv.1 ++ "=" ++ substVersion profile.name version kv.2)
    ++ profile.docker_layers.map (substVersion profile.name version)
    ++ [""]

/-- Embedding of `DockerfileGenerator.generate` with `ai_provider=None`
(generator.py lines 25-157): the provider-agnostic base Dockerfile. -/
def dockerfileGenerate (baseImage : String)
    (profilesWithVersions : List (ProfileDefinition × String)) : String :=
  let argLines := profilesWithVersions.map
    (fun pv => "ARG " ++ pyToUpper pv.1.name ++ "_VERSION=" ++ pv.2)
  let allDeps := (profilesWithVersions.map (fun pv => pv.1.system_dependencies)).flatten ++ ["bash"]
  let sortedDeps := pySortedDedup allDeps
  let installPackages := pySortedStrings ("nodejs" :: sortedDeps)
  let profileSections := (profilesWithVersions.map
    (fun pv => generateProfileSection pv.1 pv.2)).flatten
  let postInstall := (profilesWithVersions.map
    (fun pv => pv.1.post_install.map (substVersion pv.1.name pv.2))).flatten
  let postBlock :=
    if postInstall.isEmpty then []
    else ["# Run profile post-install commands"] ++ postInstall.map (fun c => "RUN " ++ c) ++ [""]
  let lines :=
    ["FROM " ++ baseImage, "", "# Base setup", ""]
      ++ argLines
      ++ ["", "# Create aibox user with UID 1000 for volume mount compatibility",
          "RUN adduser --disabled-password --gecos \"\" --uid 1000 aibox", ""]
      ++ ["# Install Node.js 20 (required for AI CLIs) and system packages",
          "RUN apt-get update && \\",
          "    apt-get install -y --no-install-recommends curl ca-certificates gnupg && \\",
          "    mkdir -p /etc/apt/keyrings && \\",
          "    curl -fsSL https://deb.nodesource.com/gpgkey/nodesource-repo.gpg.key | \\",
          "    gpg --dearmor -o /etc/apt/keyrings/nodesource.gpg && \\",
          "    echo \"deb [signed-by=/etc/apt/keyrings/nodesource.gpg] https://deb.nodesource.com/node_20.x nodistro main\" > /etc/apt/sources.list.d/nodesource.list && \\",
          "    apt-get update && \\",
          "    apt-get install -y --no-install-recommends \\"]
      ++ aptLines installPackages
      ++ ["    rm -rf /var/lib/apt/lists/*", ""]
      ++ ["# Configure npm global package installation directory",
          "ENV NPM_CONFIG_PREFIX=\"/home/aibox/npm-global\"",
          "ENV PATH=\"/home/aibox/npm-global/bin:$PATH\"", ""]
      ++ profileSections
      ++ ["# Set up working environment", "RUN chown -R aibox:aibox /home/aibox", "USER aibox", ""]
      ++ postBlock
      ++ ["WORKDIR /workspace", ""]
      ++ ["# Default command", "CMD [\"/bin/bash\"]"]
  String.intercalate "\n" lines

/-! ## SHA-256 (model of Python's `hashlib.sha256(...).hexdigest()`)

The orchestrator fingerprints call into `hashlib`; the claims about fingerprint
in/equality need the actual function, so SHA-256 (FIPS 180-4) is implemented
here over byte lists, with 32-bit words as `Nat` reduced mod `2^32`. -/

/-- Right rotation of a 32-bit word. -/
def rotr32 (n x : Nat) : Nat :=
  ((x >>> n) ||| (x <<< (32 - n))) % 4294967296

/-- Lower-case sigma-0 of the SHA-256 message schedule. -/
def ssig0 (x : Nat) : Nat :=
  (rotr32 7 x) ^^^ (rotr32 18 x) ^^^ (x >>> 3)

/-- Lower-case sigma-1 of the SHA-256 message schedule. -/
def ssig1 (x : Nat) : Nat :=
  (rotr32 17 x) ^^^ (rotr32 19 x) ^^^ (x >>> 10)

/-- Upper-case sigma-0 of the SHA-256 compression function. -/
def bsig0 (x : Nat) : Nat :=
  (rotr32 2 x) ^^^ (rotr32 13 x) ^^^ (rotr32 22 x)

/-- Upper-case sigma-1 of the SHA-256 compression function. -/
def bsig1 (x : Nat) : Nat :=
  (rotr32 6 x) ^^^ (rotr32 11 x) ^^^ (rotr32 25 x)

/-- The 64 SHA-256 round constants. -/
def sha256K : List Nat :=
  [1116352408, 1899447441, 3049323471, 3921009573, 961987163, 1508970993, 2453635748, 2870763221,
   3624381080, 310598401, 607225278, 1426881987, 1925078388, 2162078206, 2614888103, 3248222580,
   3835390401, 4022224774, 264347078, 604807628, 770255983, 1249150122, 1555081692, 1996064986,
   2554220882, 2821834349, 2952996808, 3210313671, 3336571891, 3584528711, 113926993, 338241895,
   666307205, 773529912, 1294757372, 1396182291, 1695183700, 1986661051, 2177026350, 2456956037,
   2730485921, 2820302411, 3259730800, 3345764771, 3516065817, 3600352804, 4094571909, 275423344,
   430227734, 506948616, 659060556, 883997877, 958139571, 1322822218, 1537002063, 1747873779,
   1955562222, 2024104815, 2227730452, 2361852424, 2428436474, 2756734187, 3204031479, 3329325298]

/-- The SHA-256 initial hash value. -/
def sha256IV : List Nat :=
  [1779033703, 3144134277, 1013904242, 2773480762, 1359893119, 2600822924, 528734635, 1541459225]

/-- Big-endian byte serialization of `n` into `k` bytes. -/
def beBytes : Nat → Nat → List Nat
  | 0, _ => []
  | k + 1, n => beBytes k (n / 256) ++ [n % 256]

/-- Tail-recursive list length (kernel-reduction friendly). -/
def listLen (acc : Nat) : List α → Nat
  | [] => acc
  | _ :: t => listLen (acc + 1) t

/-- SHA-256 padding: append 0x80, zero bytes up to 56 mod 64, and the bit
length as 8 big-endian bytes. -/
def sha256Pad (msg : List Nat) : List Nat :=
  msg ++ [128] ++ List.replicate ((119 - listLen 0 msg % 64) % 64) 0 ++ beBytes 8 (listLen 0 msg * 8)

/-- Combine bytes into big-endian 32-bit words. -/
def bytesToWords : List Nat → List Nat
  | b0 :: b1 :: b2 :: b3 :: rest => (((b0 * 256 + b1) * 256 + b2) * 256 + b3) :: bytesToWords rest
  | _ => []

/-- Extend the 16 message words by `k` more schedule words. -/
def extendSchedule : Nat → List Nat → List Nat
  | 0, w => w
  | k + 1, w =>
    let n := w.length
    let wi := (ssig1 (w.getD (n - 2) 0) + w.getD (n - 7) 0
      + ssig0 (w.getD (n - 15) 0) + w.getD (n - 16) 0) % 4294967296
    extendSchedule k (w ++ [wi])

/-- Working state of the SHA-256 compression function. -/
structure Sha256State where
  a : Nat
  b : Nat
  c : Nat
  d : Nat
  e : Nat
  f : Nat
  g : Nat
  h : Nat

/-- One SHA-256 compression round, consuming one (round constant, schedule
word) pair. -/
def sha256Round (st : Sha256State) (kw : Nat × Nat) : Sha256State :=
  let ch := (st.e &&& st.f) ^^^ ((st.e ^^^ 4294967295) &&& st.g)
  let maj := (st.a &&& st.b) ^^^ (st.a &&& st.c) ^^^ (st.b &&& st.c)
  let t1 := (st.h + bsig1 st.e + ch + kw.1 + kw.2) % 4294967296
  let t2 := (bsig0 st.a + maj) % 4294967296
  ⟨(t1 + t2) % 4294967296, st.a, st.b, st.c, (st.d + t1) % 4294967296, st.e, st.f, st.g⟩

/-- Process one 64-byte block, updating the eight hash words. -/
def processBlock (hs : List Nat) (block : List Nat) : List Nat :=
  let w := extendSchedule 48 (bytesToWords block)
  let st0 : Sha256State :=
    ⟨hs.getD 0 0, hs.getD 1 0, hs.getD 2 0, hs.getD 3 0,
     hs.getD 4 0, hs.getD 5 0, hs.getD 6 0, hs.getD 7 0⟩
  let st := (sha256K.zip w).foldl sha256Round st0
  [(hs.getD 0 0 + st.a) % 4294967296, (hs.getD 1 0 + st.b) % 4294967296,
   (hs.getD 2 0 + st.c) % 4294967296, (hs.getD 3 0 + st.d) % 4294967296,
   (hs.getD 4 0 + st.e) % 4294967296, (hs.getD 5 0 + st.f) % 4294967296,
   (hs.getD 6 0 + st.g) % 4294967296, (hs.getD 7 0 + st.h) % 4294967296]

/-- Worker for `toBlocks`, with fuel bounding the number of blocks (structural
recursion, so that concrete digests reduce in the kernel). -/
def toBlocksAux : Nat → List Nat → List (List Nat)
  | 0, _ => []
  | fuel + 1, l => if l.isEmpty then [] else l.take 64 :: toBlocksAux fuel (l.drop 64)

/-- Split a byte list into 64-byte blocks. -/
def toBlocks (l : List Nat) : List (List Nat) :=
  toBlocksAux (listLen 0 l) l

/-- SHA-256 digest of a byte list, as 32 bytes. -/
def sha256Bytes (msg : List Nat) : List Nat :=
  (((toBlocks (sha256Pad msg)).foldl processBlock sha256IV).map (beBytes 4)).flatten

/-- UTF-8 encoding of one character (model of `str.encode("utf-8")`). -/
def utf8EncodeChar (c : Char) : List Nat :=
  let u := c.toNat
  if u < 128 then [u]
  else if u < 2048 then [192 + u / 64, 128 + u % 64]
  else if u < 65536 then [224 + u / 4096, 128 + (u / 64) % 64, 128 + u % 64]
  else [240 + u / 262144, 128 + (u / 4096) % 64, 128 + (u / 64) % 64, 128 + u % 64]

/-- UTF-8 bytes of a string. -/
def strUtf8 (s : String) : List Nat :=
  (s.toList.map utf8EncodeChar).flatten

/-- Hex character of a nibble (lower case, as `hexdigest`). -/
def hexChar (n : Nat) : Char :=
  "0123456789abcdef".toList.getD n '0'

/-- Two hex characters of a byte. -/
def byteHexChars (b : Nat) : List Char :=
  [hexChar (b / 16), hexChar (b % 16)]

/-- Embedding of `ContainerOrchestrator._generate_base_image_hash`
(orchestrator.py lines 72-90): join Dockerfile content, base image and the
comma-joined sorted profile specs with newlines, SHA-256 the UTF-8 bytes, and
keep the first 12 hex digits. -/
def generateBaseImageHash (dockerfileContent baseImage : String)
    (profiles : List String) : String :=
  let contentStr := String.intercalate "\n"
    [dockerfileContent, baseImage, String.intercalate "," (pySortedStrings profiles)]
  String.mk ((((sha256Bytes (strUtf8 contentStr)).map byteHexChars).flatten).take 12)

/-- The base fingerprint as `start_container` computes it (orchestrator.py
lines 192-213): the Dockerfile content is generated from the resolved profiles
*in configuration order*, and the hash additionally receives the base image and
the raw profile spec strings.  `resolve` stands for
`ProfileLoader.load_profile`, mapping a spec string to its resolved definition
and version. -/
def configBaseFingerprint (resolve : String → ProfileDefinition × String)
    (baseImage : String) (profileSpecs : List String) : String :=
  generateBaseImageHash (dockerfileGenerate baseImage (profileSpecs.map resolve))
    baseImage profileSpecs

/-! ## Helper observers and concrete inputs used by the theorems -/

/-- The build-flag and event components of a provisioning result (the engine
component carries function fields, so the theorems observe results through
this projection). -/
def resultEvents (r : Except AiboxErr (Engine × Bool × List DockerEvent)) :
    Option (Bool × List DockerEvent) :=
  match r with
  | .ok (_, b, ev) => some (b, ev)
  | .error _ => none

/-- The error component of a provisioning result, if any. -/
def resultError (r : Except AiboxErr (Engine × Bool × List DockerEvent)) : Option AiboxErr :=
  match r with
  | .ok _ => none
  | .error err => some err

/-- The store and event components of a stop result. -/
def stopResultParts (r : Except AiboxErr (SlotStore × Engine × List DockerEvent)) :
    Option (SlotStore × List DockerEvent) :=
  match r with
  | .ok (s, _, ev) => some (s, ev)
  | .error _ => none

/-- The container name `stop_container` resolves, as described by the spec: the
bound name from the slot record, or the deterministic `aibox-<project>-<slot>`
name when there is no record or no bound name. -/
def boundOrFallbackName (s : SlotStore) (projectName : String) (slotNumber : Nat) : String :=
  match loadSlot s slotNumber with
  | some r =>
      if r.container_name = "" then containerNameFor projectName slotNumber
      else r.container_name
  | none => containerNameFor projectName slotNumber

/-- The state a host path ends up in after one pass of the `prepare_volumes`
path loop, as a function of its prior state and suffix-ness. -/
def pathOutcome (t : PathState) (hasSuf : Bool) : PathState :=
  match t with
  | .absent => if hasSuf then .absent else .dir true true
  | .dir w ok => if w then .dir w ok else if ok then .dir true ok else .dir w ok
  | .file rw ok => if rw then .file rw ok else if ok then .file true ok else .file rw ok

/-- Whether one pass of the `prepare_volumes` path loop mounts the path. -/
def pathMounted (t : PathState) (hasSuf : Bool) : Bool :=
  match pathOutcome t hasSuf with
  | .absent => false
  | .dir w _ => w
  | .file rw _ => rw

/-- A minimal resolved profile used in the fingerprint counterexample. -/
def demoAlpha : ProfileDefinition :=
  ⟨"alpha", ["1"], "1", [], [], [], []⟩

/-- A second minimal resolved profile used in the fingerprint counterexample. -/
def demoBeta : ProfileDefinition :=
  ⟨"beta", ["1"], "1", [], [], [], []⟩

/-- A two-profile catalog for the fingerprint counterexample (the role of
`ProfileLoader.load_profile`). -/
def demoResolve (spec : String) : ProfileDefinition × String :=
  if spec = "alpha:1" then (demoAlpha, "1") else (demoBeta, "1")

/-- A store with one slot whose metadata file is present but unparsable. -/
def badFileStore : SlotStore :=
  ⟨[(1, ⟨some .bad, []⟩)]⟩

/-- A store with one bound slot carrying old timestamps. -/
def boundSlotStore : SlotStore :=
  ⟨[(1, ⟨some (.good ⟨"claude", "aibox-proj-1", "2020-01-01T00:00:00+00:00",
      "2020-01-02T00:00:00+00:00"⟩), [".claude"]⟩)]⟩

/-- A store with slots 2 and 10, both parsable (directory names sort as
`slot-10 < slot-2`). -/
def twoDigitStore : SlotStore :=
  ⟨[(2, ⟨some (.good ⟨"claude", "aibox-p-2", "t2", "t2"⟩), []⟩),
    (10, ⟨some (.good ⟨"gemini", "aibox-p-10", "t10", "t10"⟩), []⟩)]⟩

/-- An engine on which every operation succeeds except pruning. -/
def brokenPruneEngine : Engine :=
  ⟨[], fun _ => true, fun _ => true, fun _ _ => true, false, [], fun _ => true⟩

/-- Placeholder record for total record extraction. -/
def defaultRecord : SlotRecord :=
  ⟨"", "", "", ""⟩

/-- Total record extraction from a slot directory (meaningful when the
directory is good). -/
def getRec (d : SlotDir) : SlotRecord :=
  (recOfDir d).getD defaultRecord

/-! # Lemmas about the slot store -/

theorem dirOf_eq_none_iff {s : SlotStore} {n : Nat} :
    s.dirOf n = none ↔ n ∉ s.keys := by
  unfold SlotStore.dirOf SlotStore.keys
  rw [Option.map_eq_none', List.find?_eq_none]
  constructor
  · intro h hm
    rcases List.mem_map.mp hm with ⟨e, he, hk⟩
    exact (h e he) (by simp [hk])
  · intro h e he
    simp only [beq_iff_eq]
    intro hk
    exact h (List.mem_map.mpr ⟨e, he, hk⟩)

theorem find?_key_of_mem {α : Type} {l : List (Nat × α)} (h : (l.map Prod.fst).Nodup)
    {n : Nat} {a : α} (hm : (n, a) ∈ l) :
    l.find? (fun e => e.1 == n) = some (n, a) := by
  induction l with
  | nil => cases hm
  | cons e t ih =>
    rw [List.mem_cons] at hm
    rcases hm with rfl | hm
    · exact List.find?_cons_of_pos _ (by simp)
    · rw [List.map_cons] at h
      have hnd := List.nodup_cons.mp h
      have hkey : e.1 ≠ n := by
        intro he
        exact hnd.1 (he ▸ List.mem_map.mpr ⟨(n, a), hm, rfl⟩)
      rw [List.find?_cons_of_neg _ (by simp [hkey])]
      exact ih hnd.2 hm

theorem dirOf_eq_some_iff {s : SlotStore} (h : s.keysNodup) {n : Nat} {d : SlotDir} :
    s.dirOf n = some d ↔ (n, d) ∈ s.dirs := by
  unfold SlotStore.dirOf
  constructor
  · intro he
    rcases Option.map_eq_some'.mp he with ⟨e, hf, hsnd⟩
    have hkey : e.1 = n := by simpa using List.find?_some hf
    have hmem := List.mem_of_find?_eq_some hf
    have hed : e = (n, d) := by
      cases e
      simp only [Prod.mk.injEq]
      exact ⟨hkey, hsnd⟩
    rwa [hed] at hmem
  · intro hm
    rw [find?_key_of_mem h hm]
    rfl

theorem keysNodup_of_perm {s t : SlotStore} (hp : s.dirs.Perm t.dirs) (h : t.keysNodup) :
    s.keysNodup := by
  unfold SlotStore.keysNodup SlotStore.keys at *
  exact ((hp.map Prod.fst).nodup_iff).mpr h

theorem dirOf_perm {s t : SlotStore} (hp : s.dirs.Perm t.dirs) (h : t.keysNodup) (n : Nat) :
    s.dirOf n = t.dirOf n := by
  have hs : s.keysNodup := keysNodup_of_perm hp h
  cases ht : t.dirOf n with
  | some d =>
    exact (dirOf_eq_some_iff hs).mpr (hp.mem_iff.mpr ((dirOf_eq_some_iff h).mp ht))
  | none =>
    rw [dirOf_eq_none_iff] at ht ⊢
    intro hm
    exact ht ((hp.map Prod.fst).mem_iff.mp hm)

theorem find?_key_map_keep {α : Type} {l : List (Nat × α)} {f : Nat × α → Nat × α}
    (hf : ∀ e, (f e).1 = e.1) (n : Nat) :
    (l.map f).find? (fun e => e.1 == n) = (l.find? (fun e => e.1 == n)).map f := by
  induction l with
  | nil => rfl
  | cons e t ih =>
    by_cases hk : e.1 = n
    · rw [List.map_cons, List.find?_cons_of_pos _ (by simp [hf, hk]),
        List.find?_cons_of_pos _ (by simp [hk])]
      rfl
    · rw [List.map_cons, List.find?_cons_of_neg _ (by simp [hf, hk]),
        List.find?_cons_of_neg _ (by simp [hk])]
      exact ih

theorem dirOf_saveSlot (s : SlotStore) (n : Nat) (p c tc tl : String) (m : Nat) :
    (saveSlot s n p c tc tl).dirOf m =
      if m = n then
        some ⟨some (.good ⟨p, c, tc, tl⟩), ((s.dirOf n).map SlotDir.payload).getD []⟩
      else s.dirOf m := by
  unfold saveSlot
  by_cases hex : (s.dirOf n).isSome
  · rw [if_pos hex]
    show ((s.dirs.map _).find? (fun e => e.1 == m)).map Prod.snd = _
    rw [find?_key_map_keep (by intro e; by_cases h : e.1 = n <;> simp [h])]
    by_cases hmn : m = n
    · subst hmn
      cases hfind : s.dirs.find? (fun e => e.1 == m) with
      | none =>
        exfalso
        revert hex
        unfold SlotStore.dirOf
        rw [hfind]
        simp
      | some e =>
        have hkey : e.1 = m := by simpa using List.find?_some hfind
        have hdir : s.dirOf m = some e.2 := by
          unfold SlotStore.dirOf
          rw [hfind]
          rfl
        rw [if_pos rfl]
        simp only [Option.map_some', hkey, if_pos, hdir]
        rfl
    · rw [if_neg hmn]
      unfold SlotStore.dirOf
      cases hfind : s.dirs.find? (fun e => e.1 == m) with
      | none => rfl
      | some e =>
        have hkey : e.1 = m := by simpa using List.find?_some hfind
        simp only [Option.map_some']
        rw [if_neg (by rw [hkey]; exact hmn)]
  · rw [if_neg hex]
    have hnone : s.dirs.find? (fun e => e.1 == n) = none := by
      revert hex
      unfold SlotStore.dirOf
      cases s.dirs.find? (fun e => e.1 == n) <;> simp
    show ((s.dirs ++ [(n, (⟨some (.good ⟨p, c, tc, tl⟩), []⟩ : SlotDir))]).find?
      (fun e => e.1 == m)).map Prod.snd = _
    rw [List.find?_append]
    by_cases hmn : m = n
    · subst hmn
      rw [hnone]
      simp only [Option.none_or, if_pos rfl]
      rw [List.find?_cons_of_pos _ (by simp)]
      have : s.dirOf m = none := by
        unfold SlotStore.dirOf
        rw [hnone]
        rfl
      rw [this]
      rfl
    · rw [if_neg hmn]
      unfold SlotStore.dirOf
      cases hfind : s.dirs.find? (fun e => e.1 == m) with
      | none =>
        rw [List.find?_cons_of_neg _ (by simp [Ne.symm hmn]), List.find?_nil]
        rfl
      | some e => rfl

theorem metadataFile_saveSlot (s : SlotStore) (n : Nat) (p c tc tl : String) (m : Nat) :
    metadataFile (saveSlot s n p c tc tl) m =
      if m = n then some (.good ⟨p, c, tc, tl⟩) else metadataFile s m := by
  unfold metadataFile
  rw [dirOf_saveSlot]
  by_cases hmn : m = n <;> simp [hmn]

theorem find?_range'_some {len start : Nat} {p : Nat → Bool} {i : Nat}
    (h : (List.range' start len).find? p = some i) :
    start ≤ i ∧ i < start + len ∧ p i = true ∧ ∀ j, start ≤ j → j < i → p j = false := by
  induction len generalizing start with
  | zero => cases h
  | succ len ih =>
    rw [List.range'_succ] at h
    by_cases hp : p start
    · rw [List.find?_cons_of_pos _ hp] at h
      cases h
      exact ⟨le_refl _, by omega, hp, fun j h1 h2 => by omega⟩
    · rw [List.find?_cons_of_neg _ hp] at h
      obtain ⟨h1, h2, h3, h4⟩ := ih h
      refine ⟨by omega, by omega, h3, ?_⟩
      intro j hj1 hj2
      by_cases hjs : j = start
      · subst hjs
        exact Bool.eq_false_iff.mpr hp
      · exact h4 j (by omega) hj2

theorem find?_range'_none {len start : Nat} {p : Nat → Bool} :
    (List.range' start len).find? p = none ↔
      ∀ j, start ≤ j → j < start + len → p j = false := by
  rw [List.find?_eq_none]
  constructor
  · intro h j h1 h2
    have := h j (List.mem_range'_1.mpr ⟨h1, h2⟩)
    exact Bool.eq_false_iff.mpr this
  · intro h x hx
    obtain ⟨h1, h2⟩ := List.mem_range'_1.mp hx
    rw [h x h1 h2]
    simp

/-- C5: `find_available_slot` (with its default `start=1`) scans `1..max_slots`
in increasing order and returns the first slot number whose record file does
not exist — in particular never a number already present in the store — and it
raises `NoAvailableSlotsError` if and only if every number in `1..max_slots`
is occupied. -/
theorem find_available_slot_spec (s : SlotStore) (maxSlots : Nat) :
    (∀ i, findAvailableSlot s maxSlots 1 = .ok i →
        1 ≤ i ∧ i ≤ maxSlots ∧ slotExists s i = false ∧
        ∀ j, 1 ≤ j → j < i → slotExists s j = true) ∧
    (findAvailableSlot s maxSlots 1 = .error .noAvailableSlots ↔
        ∀ j, 1 ≤ j → j ≤ maxSlots → slotExists s j = true) := by
  unfold findAvailableSlot
  have hms : maxSlots + 1 - 1 = maxSlots := by omega
  rw [hms]
  constructor
  · intro i hi
    cases hfind : (List.range' 1 maxSlots).find? (fun i => !slotExists s i) with
    | none => rw [hfind] at hi; cases hi
    | some i2 =>
      rw [hfind] at hi
      cases hi
      obtain ⟨h1, h2, h3, h4⟩ := find?_range'_some hfind
      refine ⟨h1, by omega, by simpa using h3, ?_⟩
      intro j hj1 hj2
      have := h4 j hj1 hj2
      simpa using this
  · cases hfind : (List.range' 1 maxSlots).find? (fun i => !slotExists s i) with
    | none =>
      simp only []
      constructor
      · intro _ j h1 h2
        have := (find?_range'_none.mp hfind) j h1 (by omega)
        simpa using this
      · intro _
        trivial
    | some i2 =>
      simp only []
      constructor
      · intro h
        cases h
      · intro hall
        obtain ⟨h1, h2, h3, _⟩ := find?_range'_some hfind
        have := hall i2 h1 (by omega)
        rw [this] at h3
        cases h3

/-- C5 witness: on a store holding only slot 1 with three slots allowed, the
characterization is inhabited at a concrete input. -/
theorem find_available_slot_spec_witness :
    (∀ i, findAvailableSlot ⟨[(1, ⟨some (.good ⟨"claude", "c1", "t", "t"⟩), []⟩)]⟩ 3 1 = .ok i →
        1 ≤ i ∧ i ≤ 3 ∧ slotExists ⟨[(1, ⟨some (.good ⟨"claude", "c1", "t", "t"⟩), []⟩)]⟩ i = false ∧
        ∀ j, 1 ≤ j → j < i →
          slotExists ⟨[(1, ⟨some (.good ⟨"claude", "c1", "t", "t"⟩), []⟩)]⟩ j = true) ∧
    (findAvailableSlot ⟨[(1, ⟨some (.good ⟨"claude", "c1", "t", "t"⟩), []⟩)]⟩ 3 1 =
        .error .noAvailableSlots ↔
      ∀ j, 1 ≤ j → j ≤ 3 →
        slotExists ⟨[(1, ⟨some (.good ⟨"claude", "c1", "t", "t"⟩), []⟩)]⟩ j = true) :=
  find_available_slot_spec ⟨[(1, ⟨some (.good ⟨"claude", "c1", "t", "t"⟩), []⟩)]⟩ 3

/-- C9 (amended): the existence check used by allocation is mere presence of
the metadata file; a slot that loads successfully always exists, but a
present-but-unparsable record still counts as existing. -/
theorem exists_is_file_presence (s : SlotStore) (n : Nat) :
    (slotExists s n = true ↔ metadataFile s n ≠ none) ∧
    (∀ r, loadSlot s n = some r → slotExists s n = true) := by
  constructor
  · simp [slotExists, Option.isSome_iff_ne_none]
  · intro r h
    unfold loadSlot at h
    unfold slotExists
    cases hm : metadataFile s n with
    | none => rw [hm] at h; cases h
    | some f => rfl

/-- C9 witness: the characterization applied at a concrete store. -/
theorem exists_is_file_presence_witness :
    (slotExists badFileStore 1 = true ↔ metadataFile badFileStore 1 ≠ none) ∧
    (∀ r, loadSlot badFileStore 1 = some r → slotExists badFileStore 1 = true) :=
  exists_is_file_presence badFileStore 1

/-- C9 counterexample: a present-but-unparsable metadata file makes the
existence check return true even though the record does not load, contradicting
the claim that existence holds exactly when the file is present *and parses*. -/
theorem exists_true_load_none_cex :
    slotExists badFileStore 1 = true ∧ loadSlot badFileStore 1 = none := by
  decide

/-- C10: after `save(p, c)`, the slot exists and `load` returns a record with
`ai_provider = p` and `container_name = c` (and the two fresh timestamps). -/
theorem save_load_roundtrip (s : SlotStore) (n : Nat) (p c tc tl : String) :
    slotExists (saveSlot s n p c tc tl) n = true ∧
    loadSlot (saveSlot s n p c tc tl) n = some ⟨p, c, tc, tl⟩ ∧
    (loadSlot (saveSlot s n p c tc tl) n).map SlotRecord.ai_provider = some p ∧
    (loadSlot (saveSlot s n p c tc tl) n).map SlotRecord.container_name = some c := by
  have h := metadataFile_saveSlot s n p c tc tl n
  rw [if_pos rfl] at h
  refine ⟨?_, ?_, ?_, ?_⟩ <;> simp [slotExists, loadSlot, h, parseMeta]

/-- C4 (amended): the metadata write at the end of a successful start is
`SlotConfig.save`, which rewrites the whole record — the resolved provider, the
container name, and *fresh* `created_at`/`last_used` timestamps — while leaving
the slot directory payload and every other slot untouched. -/
theorem bind_overwrites_record (s : SlotStore) (n : Nat) (p c tc tl : String) :
    loadSlot (saveSlot s n p c tc tl) n = some ⟨p, c, tc, tl⟩ ∧
    (∀ m, (saveSlot s n p c tc tl).dirOf m =
      if m = n then
        some ⟨some (.good ⟨p, c, tc, tl⟩), ((s.dirOf n).map SlotDir.payload).getD []⟩
      else s.dirOf m) := by
  constructor
  · have h := metadataFile_saveSlot s n p c tc tl n
    rw [if_pos rfl] at h
    simp [loadSlot, h, parseMeta]
  · exact dirOf_saveSlot s n p c tc tl

/-- C4 counterexample: binding a container to a slot that already has a record
changes `created_at` (both timestamps are reset to the current time), refuting
the claim that agent name and timestamps are unchanged by the bind. -/
theorem bind_resets_created_at_cex :
    (loadSlot (saveSlot boundSlotStore 1 "claude" "aibox-proj-1"
        "2025-06-01T12:00:00+00:00" "2025-06-01T12:00:00+00:00") 1).map SlotRecord.created_at ≠
      (loadSlot boundSlotStore 1).map SlotRecord.created_at := by
  decide

/-- C7: `stop_container` never writes the slot store, and the container it
stops carries the name bound in the slot record, falling back to the
deterministic `aibox-<project>-<slot>` name when there is no record or no
bound name. -/
theorem stop_preserves_metadata (s : SlotStore) (eng : Engine) (project : String)
    (slot : Nat) (h : 1 ≤ slot) :
    ∀ s2 ev, stopResultParts (stopContainerOp s eng project slot) = some (s2, ev) →
      s2 = s ∧ ev = [.stoppedContainer (boundOrFallbackName s project slot)] := by
  intro s2 ev hp
  have hname : ((loadSlot s slot).bind
      (fun r => if r.container_name = "" then none else some r.container_name)).getD
        (containerNameFor project slot) = boundOrFallbackName s project slot := by
    unfold boundOrFallbackName
    cases loadSlot s slot with
    | none => rfl
    | some r =>
      by_cases hc : r.container_name = "" <;> simp [hc]
  simp only [stopContainerOp, if_neg (show ¬ slot < 1 by omega)] at hp
  rw [hname] at hp
  cases hse : stopEngineContainer eng (boundOrFallbackName s project slot) with
  | ok q =>
    obtain ⟨e1, ev1⟩ := q
    rw [hse] at hp
    have hev1 : ev1 = [.stoppedContainer (boundOrFallbackName s project slot)] := by
      unfold stopEngineContainer at hse
      split at hse
      · simp only [Except.ok.injEq, Prod.mk.injEq] at hse
        exact hse.2.symm
      · cases hse
    simp only [stopResultParts, Option.some.injEq, Prod.mk.injEq] at hp
    exact ⟨hp.1.symm, by rw [← hp.2, hev1]⟩
  | error err =>
    rw [hse] at hp
    cases hp

/-- C7 witness: the frame property applied at a concrete store, engine and
stop outcome. -/
theorem stop_preserves_metadata_witness :
    boundSlotStore = boundSlotStore ∧
    [DockerEvent.stoppedContainer "aibox-proj-1"] =
      [.stoppedContainer (boundOrFallbackName boundSlotStore "proj" 1)] :=
  stop_preserves_metadata boundSlotStore
    ⟨[], fun _ => true, fun _ => true, fun _ _ => true, true, ["aibox-proj-1"], fun _ => true⟩
    "proj" 1 (by omega) boundSlotStore [.stoppedContainer "aibox-proj-1"] (by decide)

theorem buildImage_ok {eng : Engine} {th : String} {e : Engine} {ev : List DockerEvent}
    (h : buildImage eng th = .ok (e, ev)) :
    ev = [.builtImage th] ∧ e.pruneOk = eng.pruneOk := by
  unfold buildImage at h
  split at h
  · simp only [Except.ok.injEq, Prod.mk.injEq] at h
    obtain ⟨he, hev⟩ := h
    subst he hev
    exact ⟨rfl, rfl⟩
  · cases h

theorem tagImage_ok {eng : Engine} {src tgt : String} {e : Engine} {ev : List DockerEvent}
    (h : tagImage eng src tgt = .ok (e, ev)) :
    ev = [.taggedImage src tgt] ∧ e.pruneOk = eng.pruneOk := by
  unfold tagImage at h
  split at h
  · simp only [Except.ok.injEq, Prod.mk.injEq] at h
    obtain ⟨he, hev⟩ := h
    subst he hev
    exact ⟨rfl, rfl⟩
  · cases h

theorem ensure_ok_shape {eng : Engine} {th tl : String} {e : Engine} {b : Bool}
    {ev : List DockerEvent} (h : ensureImageExists eng th tl = .ok (e, b, ev)) :
    DockerEvent.prunedDangling ∉ ev ∧ e.pruneOk = eng.pruneOk := by
  unfold ensureImageExists at h
  by_cases hex : eng.imageExists th = true
  · rw [if_pos hex] at h
    cases ht : tagImage eng th tl with
    | ok p =>
      obtain ⟨e1, ev1⟩ := p
      rw [ht] at h
      simp only [Except.ok.injEq, Prod.mk.injEq] at h
      obtain ⟨he, _, hev⟩ := h
      subst he hev
      obtain ⟨hev1, hpk⟩ := tagImage_ok ht
      subst hev1
      exact ⟨by simp, hpk⟩
    | error err =>
      rw [ht] at h
      dsimp only [] at h
      cases hb2 : buildImage eng th with
      | error e2 => rw [hb2] at h; cases h
      | ok p =>
        obtain ⟨e1, ev1⟩ := p
        rw [hb2] at h
        dsimp only [] at h
        cases ht2 : tagImage e1 th tl with
        | error e2 => rw [ht2] at h; cases h
        | ok q =>
          obtain ⟨e2, ev2⟩ := q
          rw [ht2] at h
          simp only [Except.ok.injEq, Prod.mk.injEq] at h
          obtain ⟨he, _, hev⟩ := h
          subst he hev
          obtain ⟨hev1, hpk1⟩ := buildImage_ok hb2
          obtain ⟨hev2, hpk2⟩ := tagImage_ok ht2
          subst hev1 hev2
          exact ⟨by simp, by rw [hpk2, hpk1]⟩
  · rw [if_neg hex] at h
    cases hb2 : buildImage eng th with
    | error e2 => rw [hb2] at h; cases h
    | ok p =>
      obtain ⟨e1, ev1⟩ := p
      rw [hb2] at h
      dsimp only [] at h
      by_cases hex2 : e1.imageExists th = true
      · rw [if_pos hex2] at h
        cases ht2 : tagImage e1 th tl with
        | error e2 => rw [ht2] at h; cases h
        | ok q =>
          obtain ⟨e2, ev2⟩ := q
          rw [ht2] at h
          simp only [Except.ok.injEq, Prod.mk.injEq] at h
          obtain ⟨he, _, hev⟩ := h
          subst he hev
          obtain ⟨hev1, hpk1⟩ := buildImage_ok hb2
          obtain ⟨hev2, hpk2⟩ := tagImage_ok ht2
          subst hev1 hev2
          exact ⟨by simp, by rw [hpk2, hpk1]⟩
      · rw [if_neg hex2] at h
        cases h

/-- C3 (amended): in the image-provisioning segment of `start_container`, the
dangling-image prune runs exactly when a provider-layer build occurred (never
on a mere cache hit); but a prune failure is *not* swallowed — it propagates
as `DockerError`, so with a failing prune the segment can only succeed when no
provider build happened. -/
theorem prune_triggered_iff_provider_build (eng : Engine) (bh bl ph pl : String) :
    (∀ b ev, resultEvents (provisionImages eng bh bl ph pl) = some (b, ev) →
        (DockerEvent.prunedDangling ∈ ev ↔ b = true)) ∧
    (eng.pruneOk = false →
      ∀ b ev, resultEvents (provisionImages eng bh bl ph pl) = some (b, ev) → b = false) := by
  unfold provisionImages
  cases hE1 : ensureImageExists eng bh bl with
  | error err =>
    simp only [hE1]
    simp [resultEvents]
  | ok x =>
    obtain ⟨e1, b1, ev1⟩ := x
    simp only [hE1]
    cases hE2 : ensureImageExists e1 ph pl with
    | error err =>
      simp only [hE2]
      simp [resultEvents]
    | ok y =>
      obtain ⟨e2, b2, ev2⟩ := y
      simp only [hE2]
      have hnp1 := (ensure_ok_shape hE1).1
      have hnp2 := (ensure_ok_shape hE2).1
      have hpk : e2.pruneOk = eng.pruneOk := by
        rw [(ensure_ok_shape hE2).2, (ensure_ok_shape hE1).2]
      cases b2 with
      | true =>
        simp only [if_pos]
        unfold pruneDanglingImages
        by_cases hpr : e2.pruneOk
        · rw [if_pos hpr]
          constructor
          · intro b ev hbe
            simp only [resultEvents, Option.some.injEq] at hbe
            obtain ⟨hb, hev⟩ := Prod.mk.injEq .. ▸ hbe
            subst hb hev
            simp [hnp1, hnp2]
          · intro hpf
            rw [hpk, hpf] at hpr
            exact absurd hpr (by decide)
        · rw [if_neg hpr]
          simp [resultEvents]
      | false =>
        simp only [Bool.false_eq_true, if_neg (by simp : ¬ False)]
        constructor
        · intro b ev hbe
          simp only [resultEvents, Option.some.injEq] at hbe
          obtain ⟨hb, hev⟩ := Prod.mk.injEq .. ▸ hbe
          subst hb hev
          simp [hnp1, hnp2]
        · intro _ b ev hbe
          simp only [resultEvents, Option.some.injEq] at hbe
          obtain ⟨hb, _⟩ := Prod.mk.injEq .. ▸ hbe
          exact hb.symm

/-- C3 witness: the characterization applied at a concrete engine whose prune
fails. -/
theorem prune_triggered_iff_provider_build_witness :
    (∀ b ev, resultEvents (provisionImages brokenPruneEngine "base:h" "base:latest"
        "prov:h" "prov:latest") = some (b, ev) →
        (DockerEvent.prunedDangling ∈ ev ↔ b = true)) ∧
    (brokenPruneEngine.pruneOk = false →
      ∀ b ev, resultEvents (provisionImages brokenPruneEngine "base:h" "base:latest"
        "prov:h" "prov:latest") = some (b, ev) → b = false) :=
  prune_triggered_iff_provider_build brokenPruneEngine "base:h" "base:latest"
    "prov:h" "prov:latest"

/-- C3 counterexample: on an engine where everything succeeds except pruning, a
start that needs a provider build fails with `DockerError` — the prune failure
is not swallowed — while the identical engine with a working prune succeeds. -/
theorem prune_failure_fails_start_cex :
    resultError (provisionImages brokenPruneEngine "base:h" "base:latest"
      "prov:h" "prov:latest") = some .dockerError ∧
    resultEvents (provisionImages { brokenPruneEngine with pruneOk := true }
      "base:h" "base:latest" "prov:h" "prov:latest") =
      some (true, [.builtImage "base:h", .taggedImage "base:h" "base:latest",
        .builtImage "prov:h", .taggedImage "prov:h" "prov:latest", .prunedDangling]) := by
  constructor
  · rfl
  · rfl

theorem map_proj_filterMap_sublist {α β γ : Type} (g : α → Option β) (f1 : α → γ) (f2 : β → γ)
    (hg : ∀ a b, g a = some b → f2 b = f1 a) :
    ∀ l : List α, ((l.filterMap g).map f2).Sublist (l.map f1) := by
  intro l
  induction l with
  | nil => simp
  | cons a t ih =>
    cases hga : g a with
    | none =>
      rw [List.filterMap_cons_none hga, List.map_cons]
      exact ih.cons _
    | some b =>
      rw [List.filterMap_cons_some hga, List.map_cons, List.map_cons, hg a b hga]
      exact ih.cons₂ _

/-- C6 (amended): `list_slots` returns exactly the slots whose metadata parses
to a non-empty record — a malformed or unparsable record is skipped without
aborting the listing — but the result is ordered lexicographically by the
`slot-<n>` directory name (Python sorts the `glob` paths as strings), which
coincides with increasing slot number only while the numbers have equally many
digits. -/
theorem list_slots_spec (s : SlotStore) :
    (∀ n r, (n, r) ∈ listSlots s ↔ ∃ d, (n, d) ∈ s.dirs ∧ d.metadata = some (.good r)) ∧
    ((listSlots s).map (fun e => slotDirName e.1)).Sorted pyLe := by
  constructor
  · intro n r
    unfold listSlots
    rw [List.mem_filterMap]
    constructor
    · rintro ⟨e, he, hge⟩
      rcases Option.map_eq_some'.mp hge with ⟨r2, hr2, heq⟩
      have h1 : e.1 = n := congrArg Prod.fst heq
      have h2 : r2 = r := congrArg Prod.snd heq
      subst h2
      refine ⟨e.2, ?_, ?_⟩
      · rw [← h1]
        exact (List.perm_insertionSort byName s.dirs).mem_iff.mp he
      · cases hm : e.2.metadata with
        | none => rw [hm] at hr2; cases hr2
        | some f =>
          cases f with
          | good r3 =>
            rw [hm] at hr2
            simp only [Option.some_bind, parseMeta, Option.some.injEq] at hr2
            rw [hr2]
          | bad =>
            rw [hm] at hr2
            simp [parseMeta] at hr2
    · rintro ⟨d, hd, hm⟩
      refine ⟨(n, d), ?_, ?_⟩
      · exact (List.perm_insertionSort byName s.dirs).mem_iff.mpr hd
      · simp [hm, parseMeta]
  · have hs : (s.dirs.insertionSort byName).Sorted byName :=
      List.sorted_insertionSort byName s.dirs
    have hmap : ((s.dirs.insertionSort byName).map
        (fun e => slotDirName e.1)).Sorted pyLe := by
      rw [List.Sorted, List.pairwise_map]
      exact hs
    have hsub := map_proj_filterMap_sublist
      (fun e : Nat × SlotDir => (e.2.metadata.bind parseMeta).map (fun r => (e.1, r)))
      (fun e => slotDirName e.1) (fun p => slotDirName p.1)
      (by
        intro a b hab
        rcases Option.map_eq_some'.mp hab with ⟨r2, _, heq⟩
        rw [← heq])
      (s.dirs.insertionSort byName)
    exact hmap.sublist hsub

/-- C6 counterexample: with parsable slots 2 and 10, `list_slots` returns slot
10 before slot 2 (lexicographic directory-name order), refuting the claimed
increasing order of slot numbers. -/
theorem list_slots_order_cex :
    (listSlots twoDigitStore).map Prod.fst = [10, 2] ∧
    ¬ ((listSlots twoDigitStore).map Prod.fst).Sorted (fun a b => a ≤ b) := by
  constructor
  · decide
  · decide

theorem filterMap_toPair_of_good {l : List (Nat × SlotDir)}
    (h : ∀ e ∈ l, (recOfDir e.2).isSome) :
    l.filterMap (fun e => (e.2.metadata.bind parseMeta).map (fun r => (e.1, r))) =
      l.map (fun e => (e.1, getRec e.2)) := by
  induction l with
  | nil => rfl
  | cons a t ih =>
    have ha := h a (List.mem_cons_self a t)
    cases hr : recOfDir a.2 with
    | none => rw [hr] at ha; cases ha
    | some r =>
      have hbind : a.2.metadata.bind parseMeta = some r := hr
      have hget : getRec a.2 = r := by
        unfold getRec
        rw [hr]
        rfl
      rw [List.filterMap_cons_some (by rw [hbind]; rfl), List.map_cons, hget,
        ih (fun e he => h e (List.mem_cons_of_mem _ he))]

theorem listSlots_allGood {s : SlotStore} (h : allGood s) :
    listSlots s = (s.dirs.insertionSort byName).map (fun e => (e.1, getRec e.2)) := by
  unfold listSlots
  exact filterMap_toPair_of_good
    (fun e he => h e ((List.perm_insertionSort byName s.dirs).mem_iff.mp he))

theorem eq_of_perm_sorted_key {α : Type} (key : α → Nat) :
    ∀ (l₁ l₂ : List α), l₁.Perm l₂ →
      l₁.Pairwise (fun a b => key a ≤ key b) →
      l₂.Pairwise (fun a b => key a ≤ key b) →
      (l₁.map key).Nodup → l₁ = l₂ := by
  intro l₁
  induction l₁ with
  | nil =>
    intro l₂ hp _ _ _
    exact hp.nil_eq
  | cons a t ih =>
    intro l₂ hp hs₁ hs₂ hn
    cases l₂ with
    | nil => cases hp.symm.nil_eq
    | cons b t₂ =>
      have hab : a = b := by
        have ha2 : a ∈ b :: t₂ := hp.subset (List.mem_cons_self a t)
        have hb1 : b ∈ a :: t := hp.symm.subset (List.mem_cons_self b t₂)
        rcases List.mem_cons.mp ha2 with h | h
        · exact h
        · rcases List.mem_cons.mp hb1 with h2 | h2
          · exact h2.symm
          · have hk1 : key a ≤ key b := (List.pairwise_cons.mp hs₁).1 b h2
            have hk2 : key b ≤ key a := (List.pairwise_cons.mp hs₂).1 a h
            exfalso
            have hmem : key b ∈ t.map key := List.mem_map.mpr ⟨b, h2, rfl⟩
            rw [List.map_cons, List.nodup_cons] at hn
            exact hn.1 ((le_antisymm hk1 hk2) ▸ hmem)
      subst hab
      have hp2 : t.Perm t₂ := hp.cons_inv
      rw [ih t₂ hp2 (List.pairwise_cons.mp hs₁).2 (List.pairwise_cons.mp hs₂).2
        (by rw [List.map_cons, List.nodup_cons] at hn; exact hn.2)]

theorem sortedSlots_eq {s : SlotStore} (hnd : s.keysNodup) (hg : allGood s) :
    (listSlots s).insertionSort bySlotNum =
      (s.dirs.insertionSort byKeyNum).map (fun e => (e.1, getRec e.2)) := by
  rw [listSlots_allGood hg]
  set L := (s.dirs.insertionSort byName).map (fun e => (e.1, getRec e.2)) with hL
  apply eq_of_perm_sorted_key Prod.fst
  · have p1 : (L.insertionSort bySlotNum).Perm L := List.perm_insertionSort bySlotNum L
    have p2 : L.Perm (s.dirs.map (fun e => (e.1, getRec e.2))) :=
      (List.perm_insertionSort byName s.dirs).map _
    have p3 : ((s.dirs.insertionSort byKeyNum).map (fun e => (e.1, getRec e.2))).Perm
        (s.dirs.map (fun e => (e.1, getRec e.2))) :=
      (List.perm_insertionSort byKeyNum s.dirs).map _
    exact p1.trans (p2.trans p3.symm)
  · exact List.sorted_insertionSort bySlotNum L
  · rw [List.pairwise_map]
    exact List.sorted_insertionSort byKeyNum s.dirs
  · have p1 : ((L.insertionSort bySlotNum).map Prod.fst).Perm (L.map Prod.fst) :=
      (List.perm_insertionSort bySlotNum L).map _
    have p2 : (L.map Prod.fst).Perm s.keys := by
      rw [hL, List.map_map]
      have p2a : ((s.dirs.insertionSort byName).map
          (Prod.fst ∘ fun e => (e.1, getRec e.2))).Perm
          (s.dirs.map (Prod.fst ∘ fun e => (e.1, getRec e.2))) :=
        (List.perm_insertionSort byName s.dirs).map _
      have heq : s.dirs.map (Prod.fst ∘ fun e => (e.1, getRec e.2)) = s.keys := rfl
      rwa [heq] at p2a
    exact (p1.trans p2).nodup_iff.mpr hnd

theorem recOfDir_some {d : SlotDir} {r : SlotRecord} (h : recOfDir d = some r) :
    d.metadata = some (.good r) := by
  unfold recOfDir at h
  cases hm : d.metadata with
  | none => rw [hm] at h; cases h
  | some f =>
    cases f with
    | good r2 =>
      rw [hm] at h
      simp only [Option.some_bind, parseMeta, Option.some.injEq] at h
      rw [h]
    | bad =>
      rw [hm] at h
      simp [parseMeta] at h

theorem moveDir_free_dirs {s : SlotStore} {old new : Nat} {d : SlotDir}
    (hold : s.dirOf old = some d) (hnew : s.dirOf new = none) :
    (moveDir s old new).dirs = s.dirs.map (fun e => if e.1 = old then (new, d) else e) := by
  unfold moveDir
  rw [hold, hnew]
  rfl

theorem writeMeta_dirs (s : SlotStore) (n : Nat) (f : SlotFile) :
    (writeMeta s n f).dirs =
      s.dirs.map (fun e => if e.1 = n then (e.1, { e.2 with metadata := some f }) else e) :=
  rfl

theorem renumber_fold :
    ∀ (pend done : List (Nat × SlotDir)) (cur : SlotStore) (j : Nat),
      cur.dirs.Perm (done ++ pend) →
      done.map Prod.fst = List.range' 1 j →
      (pend.map Prod.fst).Pairwise (fun a b => a < b) →
      (∀ e ∈ pend, j < e.1) →
      (∀ e ∈ pend, (recOfDir e.2).isSome) →
      (((pend.map (fun e => (e.1, getRec e.2))).enumFrom (j + 1)).foldl
          renumberStep cur).dirs.Perm
        (done ++ (pend.enumFrom (j + 1)).map (fun x => (x.1, x.2.2))) := by
  intro pend
  induction pend with
  | nil =>
    intro done cur j hperm _ _ _ _
    simpa using hperm
  | cons e t ih =>
    intro done cur j hperm hdone hpw hgt hgood
    obtain ⟨n, d⟩ := e
    have hgd := hgood (n, d) (List.mem_cons_self _ _)
    cases hr : recOfDir d with
    | none => rw [hr] at hgd; cases hgd
    | some r =>
    have hrec : getRec d = r := by
      unfold getRec
      rw [hr]
      rfl
    have hd_meta : d.metadata = some (.good r) := recOfDir_some hr
    have hgtn : j < n := hgt (n, d) (List.mem_cons_self _ _)
    rw [List.map_cons] at hpw
    have hpw_head := (List.pairwise_cons.mp hpw).1
    have hpw_tail := (List.pairwise_cons.mp hpw).2
    have hgt_t : ∀ e2 ∈ t, j + 1 < e2.1 := by
      intro e2 he2
      have := hpw_head e2.1 (List.mem_map.mpr ⟨e2, he2, rfl⟩)
      omega
    have hgood_t : ∀ e2 ∈ t, (recOfDir e2.2).isSome :=
      fun e2 he2 => hgood e2 (List.mem_cons_of_mem _ he2)
    have hdone2 : (done ++ [(j + 1, d)]).map Prod.fst = List.range' 1 (j + 1) := by
      rw [List.map_append, hdone, List.range'_concat]
      simp only [List.map_cons, List.map_nil, one_mul, List.append_cancel_left_eq,
        List.cons.injEq, and_true]
      omega
    -- shared continuation: once the store holds done ++ [(j+1, d)] ++ t, fold the tail
    have happ : ∀ cur2 : SlotStore, cur2.dirs.Perm ((done ++ [(j + 1, d)]) ++ t) →
        (((t.map (fun e2 => (e2.1, getRec e2.2))).enumFrom (j + 2)).foldl
            renumberStep cur2).dirs.Perm
          (done ++ (((n, d) :: t).enumFrom (j + 1)).map (fun x => (x.1, x.2.2))) := by
      intro cur2 hp2
      have hres := ih (done ++ [(j + 1, d)]) cur2 (j + 1) hp2 hdone2 hpw_tail hgt_t hgood_t
      have hshape : (done ++ [(j + 1, d)]) ++ (t.enumFrom (j + 2)).map (fun x => (x.1, x.2.2)) =
          done ++ (((n, d) :: t).enumFrom (j + 1)).map (fun x => (x.1, x.2.2)) := by
        rw [List.append_assoc]
        rfl
      rw [hshape] at hres
      exact hres
    rw [List.map_cons]
    have hpair : ((((n, d).1 : Nat), getRec (n, d).2) : Nat × SlotRecord) = (n, r) := by
      simp [hrec]
    rw [hpair]
    rw [show List.enumFrom (j + 1) ((n, r) :: (t.map (fun e2 => (e2.1, getRec e2.2)))) =
        (j + 1, (n, r)) :: List.enumFrom (j + 2) (t.map (fun e2 => (e2.1, getRec e2.2)))
      from rfl]
    rw [List.foldl_cons]
    by_cases hne : n = j + 1
    · have hstep : renumberStep cur (j + 1, (n, r)) = cur := by
        unfold renumberStep
        rw [if_pos hne]
      rw [hstep]
      apply happ cur
      have : done ++ (n, d) :: t = (done ++ [(j + 1, d)]) ++ t := by
        rw [List.append_assoc, hne]
        rfl
      rw [← this]
      exact hperm
    · -- keys of the current store
      have hkeys_cur : cur.keys.Perm (List.range' 1 j ++ n :: t.map Prod.fst) := by
        have := hperm.map Prod.fst
        rw [List.map_append, hdone, List.map_cons] at this
        exact this
      have hnodup_t : (t.map Prod.fst).Nodup :=
        hpw_tail.imp (fun h => Nat.ne_of_lt h)
      have hnodup_rhs : (List.range' 1 j ++ n :: t.map Prod.fst).Nodup := by
        rw [List.nodup_append]
        refine ⟨List.nodup_range' 1 j, ?_, ?_⟩
        · rw [List.nodup_cons]
          refine ⟨?_, hnodup_t⟩
          intro hmem
          rcases List.mem_map.mp hmem with ⟨e2, he2, hk⟩
          have := hpw_head e2.1 (List.mem_map.mpr ⟨e2, he2, rfl⟩)
          omega
        · intro a ha hmem
          have hab := List.mem_range'_1.mp ha
          rcases List.mem_cons.mp hmem with h | h
          · omega
          · rcases List.mem_map.mp h with ⟨e2, he2, hk⟩
            have := hgt_t e2 he2
            omega
      have hknd : cur.keysNodup := hkeys_cur.nodup_iff.mpr hnodup_rhs
      have hdirn : cur.dirOf n = some d := by
        rw [dirOf_eq_some_iff hknd]
        exact hperm.mem_iff.mpr (List.mem_append_right _ (List.mem_cons_self _ _))
      have hdirnew : cur.dirOf (j + 1) = none := by
        rw [dirOf_eq_none_iff]
        intro hmem
        have := hkeys_cur.mem_iff.mp hmem
        rcases List.mem_append.mp this with h | h
        · have := List.mem_range'_1.mp h
          omega
        · rcases List.mem_cons.mp h with h | h
          · omega
          · rcases List.mem_map.mp h with ⟨e2, he2, hk⟩
            have := hgt_t e2 he2
            omega
      set f := fun e2 : Nat × SlotDir => if e2.1 = n then (j + 1, d) else e2 with hf
      have hmoved_dirs : (moveDir cur n (j + 1)).dirs = cur.dirs.map f :=
        moveDir_free_dirs hdirn hdirnew
      have hmv_perm : (moveDir cur n (j + 1)).dirs.Perm (done ++ (j + 1, d) :: t) := by
        rw [hmoved_dirs]
        have hmap := hperm.map f
        rw [List.map_append, List.map_cons] at hmap
        have hdone_id : done.map f = done := by
          rw [List.map_congr_left (g := id), List.map_id]
          intro a ha
          have hamem : a.1 ∈ List.range' 1 j := by
            rw [← hdone]
            exact List.mem_map.mpr ⟨a, ha, rfl⟩
          have := List.mem_range'_1.mp hamem
          have hne2 : a.1 ≠ n := by omega
          simp [hf, hne2]
        have ht_id : t.map f = t := by
          rw [List.map_congr_left (g := id), List.map_id]
          intro a ha
          have := hpw_head a.1 (List.mem_map.mpr ⟨a, ha, rfl⟩)
          have hne2 : a.1 ≠ n := by omega
          simp [hf, hne2]
        have hfn : f (n, d) = (j + 1, d) := by simp [hf]
        rw [hdone_id, ht_id, hfn] at hmap
        exact hmap
      have hmv_nodup : (moveDir cur n (j + 1)).keysNodup := by
        have hmk := hmv_perm.map Prod.fst
        rw [List.map_append, hdone, List.map_cons] at hmk
        apply hmk.nodup_iff.mpr
        rw [List.nodup_append]
        refine ⟨List.nodup_range' 1 j, ?_, ?_⟩
        · rw [List.nodup_cons]
          refine ⟨?_, hnodup_t⟩
          intro hmem
          rcases List.mem_map.mp hmem with ⟨e2, he2, hk⟩
          have := hgt_t e2 he2
          omega
        · intro a ha hmem
          have hab := List.mem_range'_1.mp ha
          rcases List.mem_cons.mp hmem with h | h
          · omega
          · rcases List.mem_map.mp h with ⟨e2, he2, hk⟩
            have := hgt_t e2 he2
            omega
      have hdir_moved : (moveDir cur n (j + 1)).dirOf (j + 1) = some d := by
        rw [dirOf_eq_some_iff hmv_nodup]
        exact hmv_perm.mem_iff.mpr (List.mem_append_right _ (List.mem_cons_self _ _))
      have hload : loadSlot (moveDir cur n (j + 1)) (j + 1) = some r := by
        unfold loadSlot metadataFile
        rw [hdir_moved]
        rw [Option.some_bind, hd_meta]
        rfl
      have hstep : renumberStep cur (j + 1, (n, r)) =
          writeMeta (moveDir cur n (j + 1)) (j + 1) (.good r) := by
        unfold renumberStep
        rw [if_neg hne]
        dsimp only []
        rw [hdirn]
        simp only [Option.isSome_some, if_true]
        rw [hload]
      rw [hstep]
      apply happ
      rw [writeMeta_dirs]
      set g := fun e2 : Nat × SlotDir =>
        if e2.1 = j + 1 then (e2.1, { e2.2 with metadata := some (.good r) }) else e2 with hg
      have hmapg := hmv_perm.map g
      rw [List.map_append, List.map_cons] at hmapg
      have hdone_id : done.map g = done := by
        rw [List.map_congr_left (g := id), List.map_id]
        intro a ha
        have hamem : a.1 ∈ List.range' 1 j := by
          rw [← hdone]
          exact List.mem_map.mpr ⟨a, ha, rfl⟩
        have := List.mem_range'_1.mp hamem
        have hne2 : a.1 ≠ j + 1 := by omega
        simp [hg, hne2]
      have ht_id : t.map g = t := by
        rw [List.map_congr_left (g := id), List.map_id]
        intro a ha
        have h1 := hpw_head a.1 (List.mem_map.mpr ⟨a, ha, rfl⟩)
        have hne2 : a.1 ≠ j + 1 := by omega
        simp [hg, hne2]
      have hgd2 : g (j + 1, d) = (j + 1, d) := by
        have : { d with metadata := some (.good r) } = d := by
          cases d
          simp only [SlotDir.mk.injEq]
          exact ⟨hd_meta.symm, trivial⟩
        simp [hg, this]
      rw [hdone_id, ht_id, hgd2] at hmapg
      rw [List.append_assoc]
      exact hmapg

theorem foldl_renumberStep_id :
    ∀ (l : List (Nat × SlotRecord)) (j : Nat) (cur : SlotStore),
      l.map Prod.fst = List.range' j l.length →
      (l.enumFrom j).foldl renumberStep cur = cur := by
  intro l
  induction l with
  | nil => intro j cur _; rfl
  | cons x t ih =>
    intro j cur hmap
    rw [List.map_cons, List.length_cons, List.range'_succ] at hmap
    simp only [List.cons.injEq] at hmap
    rw [show List.enumFrom j (x :: t) = (j, x) :: List.enumFrom (j + 1) t from rfl,
      List.foldl_cons]
    have hstep : renumberStep cur (j, x) = cur := by
      unfold renumberStep
      rw [if_pos hmap.1]
    rw [hstep]
    exact ih (j + 1) cur hmap.2

/-- The structural characterization behind C2: under distinct, positive,
all-parsable slot numbers, `renumber_slots` leaves a store whose directory list
is (a permutation of) the original directories reindexed by their rank in the
ascending slot order. -/
theorem renumber_dirs_perm {s : SlotStore} (hnd : s.keysNodup) (hg : allGood s)
    (hpos : ∀ e ∈ s.dirs, 1 ≤ e.1) :
    (renumberSlots s).dirs.Perm
      (((s.dirs.insertionSort byKeyNum).enumFrom 1).map (fun x => (x.1, x.2.2))) := by
  by_cases hnil : s.dirs = []
  · have h1 : renumberSlots s = s := by
      unfold renumberSlots
      rw [show listSlots s = [] by unfold listSlots; rw [hnil]; rfl]
      rfl
    rw [h1, hnil]
    rw [show ((([] : List (Nat × SlotDir)).insertionSort byKeyNum).enumFrom 1).map
        (fun x => (x.1, x.2.2)) = [] from rfl]
  · have hlist : listSlots s =
        (s.dirs.insertionSort byName).map (fun e => (e.1, getRec e.2)) :=
      listSlots_allGood hg
    have hlist_ne : ¬ (listSlots s).isEmpty = true := by
      rw [hlist]
      cases hsort : s.dirs.insertionSort byName with
      | nil =>
        exfalso
        have := (List.perm_insertionSort byName s.dirs).length_eq
        rw [hsort] at this
        cases hdirs : s.dirs with
        | nil => exact hnil hdirs
        | cons a t => rw [hdirs] at this; simp at this
      | cons a t => simp
    unfold renumberSlots
    rw [if_neg (by simpa using hlist_ne)]
    have hsorted_eq := sortedSlots_eq hnd hg
    rw [hsorted_eq]
    have hperm0 : s.dirs.Perm ([] ++ s.dirs.insertionSort byKeyNum) := by
      rw [List.nil_append]
      exact (List.perm_insertionSort byKeyNum s.dirs).symm
    have hkeysnd : ((s.dirs.insertionSort byKeyNum).map Prod.fst).Nodup := by
      have hp : ((s.dirs.insertionSort byKeyNum).map Prod.fst).Perm s.keys :=
        (List.perm_insertionSort byKeyNum s.dirs).map _
      exact hp.nodup_iff.mpr hnd
    have hpw : ((s.dirs.insertionSort byKeyNum).map Prod.fst).Pairwise (fun a b => a < b) := by
      have hsorted : (s.dirs.insertionSort byKeyNum).Pairwise byKeyNum :=
        List.sorted_insertionSort byKeyNum s.dirs
      have hneq : (s.dirs.insertionSort byKeyNum).Pairwise (fun a b => a.1 ≠ b.1) :=
        List.pairwise_map.mp hkeysnd
      rw [List.pairwise_map]
      exact (hsorted.and hneq).imp (fun h => lt_of_le_of_ne h.1 h.2)
    have hgt : ∀ e ∈ s.dirs.insertionSort byKeyNum, 0 < e.1 := by
      intro e he
      exact hpos e ((List.perm_insertionSort byKeyNum s.dirs).mem_iff.mp he)
    have hgood : ∀ e ∈ s.dirs.insertionSort byKeyNum, (recOfDir e.2).isSome := by
      intro e he
      exact hg e ((List.perm_insertionSort byKeyNum s.dirs).mem_iff.mp he)
    have := renumber_fold (s.dirs.insertionSort byKeyNum) [] s 0 hperm0 rfl hpw hgt hgood
    rw [List.nil_append] at this
    exact this

theorem enumFrom_get? {α : Type} :
    ∀ (l : List α) (n i : Nat), (l.enumFrom n).get? i = (l.get? i).map (fun a => (n + i, a)) := by
  intro l
  induction l with
  | nil => intro n i; cases i <;> rfl
  | cons a t ih =>
    intro n i
    cases i with
    | zero => simp [List.enumFrom]
    | succ i2 =>
      rw [show List.enumFrom n (a :: t) = (n, a) :: List.enumFrom (n + 1) t from rfl]
      rw [show ((n, a) :: List.enumFrom (n + 1) t).get? (i2 + 1) =
          (List.enumFrom (n + 1) t).get? i2 from rfl]
      rw [show (a :: t).get? (i2 + 1) = t.get? i2 from rfl]
      rw [ih (n + 1) i2]
      cases t.get? i2 with
      | none => rfl
      | some b =>
        simp only [Option.map_some']
        rw [Nat.add_assoc, Nat.add_comm 1 i2]

/-- C2: on a store whose `k` slot records all parse (with distinct, positive
slot numbers, as the slot manager guarantees), `renumber_slots` leaves exactly
the slot numbers `1..k`; the slot renumbered to position `i+1` carries the
entire directory (metadata record — agent name, `created_at`, `last_used`,
untouched `container_name` — and payload) of the slot that had the `i`-th
smallest number; and running `renumber_slots` again is a no-op. -/
theorem renumber_slots_spec (s : SlotStore) (hnd : s.keysNodup) (hg : allGood s)
    (hpos : ∀ e ∈ s.dirs, 1 ≤ e.1) :
    (∀ m, slotExists (renumberSlots s) m = true ↔ 1 ≤ m ∧ m ≤ s.dirs.length) ∧
    (∀ i, i < s.dirs.length →
      (renumberSlots s).dirOf (i + 1) =
        s.dirOf ((s.keys.insertionSort (fun a b => a ≤ b)).getD i 0)) ∧
    renumberSlots (renumberSlots s) = renumberSlots s := by
  set pendTop := s.dirs.insertionSort byKeyNum with hpt
  set R := ((pendTop.enumFrom 1).map (fun x => (x.1, x.2.2))) with hR
  set k := s.dirs.length with hk
  have hP : (renumberSlots s).dirs.Perm R := renumber_dirs_perm hnd hg hpos
  have hlenPT : pendTop.length = k := (List.perm_insertionSort byKeyNum s.dirs).length_eq
  have hRkeys : R.map Prod.fst = List.range' 1 k := by
    rw [hR, List.map_map]
    have : (Prod.fst ∘ fun x : Nat × (Nat × SlotDir) => (x.1, x.2.2)) = Prod.fst := rfl
    rw [this, List.enumFrom_map_fst, hlenPT]
  have hRnodup : (R.map Prod.fst).Nodup := by
    rw [hRkeys]
    exact List.nodup_range' 1 k
  have hnd2 : (renumberSlots s).keysNodup := by
    have := (hP.map Prod.fst).nodup_iff.mpr hRnodup
    exact this
  have hRgood : ∀ e ∈ R, (recOfDir e.2).isSome := by
    intro e he
    rw [hR] at he
    rcases List.mem_map.mp he with ⟨x, hx, hfx⟩
    have hx2 : x.2 ∈ pendTop := by
      have : x.2 ∈ (pendTop.enumFrom 1).map Prod.snd := List.mem_map.mpr ⟨x, hx, rfl⟩
      rwa [List.enumFrom_map_snd] at this
    have hgood : (recOfDir x.2.2).isSome :=
      hg x.2 ((List.perm_insertionSort byKeyNum s.dirs).mem_iff.mp hx2)
    rw [← hfx]
    exact hgood
  have hg2 : allGood (renumberSlots s) := by
    intro e he
    exact hRgood e (hP.mem_iff.mp he)
  have hkeys2 : (renumberSlots s).keys.Perm (List.range' 1 k) := by
    have := hP.map Prod.fst
    rwa [hRkeys] at this
  refine ⟨?_, ?_, ?_⟩
  · -- (a) slot numbers after renumbering are exactly 1..k
    intro m
    constructor
    · intro hex
      unfold slotExists metadataFile at hex
      cases hdir : (renumberSlots s).dirOf m with
      | none => rw [hdir] at hex; cases hex
      | some d =>
        have hm : m ∈ (renumberSlots s).keys := by
          by_contra hnm
          rw [← dirOf_eq_none_iff] at hnm
          rw [hnm] at hdir
          cases hdir
        have := hkeys2.mem_iff.mp hm
        have := List.mem_range'_1.mp this
        omega
    · intro hb
      have hm : m ∈ (renumberSlots s).keys := by
        apply hkeys2.mem_iff.mpr
        exact List.mem_range'_1.mpr ⟨hb.1, by omega⟩
      cases hdir : (renumberSlots s).dirOf m with
      | none =>
        rw [dirOf_eq_none_iff] at hdir
        exact absurd hm hdir
      | some d =>
        have hmem : (m, d) ∈ (renumberSlots s).dirs := (dirOf_eq_some_iff hnd2).mp hdir
        have hgm : (recOfDir d).isSome := hg2 (m, d) hmem
        cases hrm : recOfDir d with
        | none => rw [hrm] at hgm; cases hgm
        | some r =>
          unfold slotExists metadataFile
          rw [hdir, Option.some_bind, recOfDir_some hrm]
          rfl
  · -- (b) the slot at new number i+1 is the directory of the i-th smallest old number
    intro i hi
    have hi_pt : i < pendTop.length := by rw [hlenPT]; exact hi
    set x := pendTop.get ⟨i, hi_pt⟩ with hx
    have hns : s.keys.insertionSort (fun a b => a ≤ b) = pendTop.map Prod.fst := by
      apply eq_of_perm_sorted_key (fun m => m)
      · exact (List.perm_insertionSort _ s.keys).trans
          ((List.perm_insertionSort byKeyNum s.dirs).map Prod.fst).symm
      · exact List.sorted_insertionSort _ s.keys
      · rw [List.pairwise_map]
        exact List.sorted_insertionSort byKeyNum s.dirs
      · have h1 : ((s.keys.insertionSort (fun a b => a ≤ b)).map (fun m => m)) =
            s.keys.insertionSort (fun a b => a ≤ b) := List.map_id' _
        rw [h1]
        exact (List.perm_insertionSort _ s.keys).nodup_iff.mpr hnd
    have hns_len : (s.keys.insertionSort (fun a b => a ≤ b)).length = pendTop.length := by
      rw [hns, List.length_map]
    have hgetD : (s.keys.insertionSort (fun a b => a ≤ b)).getD i 0 = x.1 := by
      rw [hns]
      rw [List.getD_eq_get _ _ (by rw [List.length_map]; exact hi_pt)]
      rw [List.get_map]
    have hold : s.dirOf x.1 = some x.2 := by
      rw [dirOf_eq_some_iff hnd]
      have hxmem : x ∈ pendTop := List.get_mem pendTop i hi_pt
      have : x ∈ s.dirs := (List.perm_insertionSort byKeyNum s.dirs).mem_iff.mp hxmem
      simpa using this
    have hnew : (renumberSlots s).dirOf (i + 1) = some x.2 := by
      rw [dirOf_eq_some_iff hnd2]
      apply hP.mem_iff.mpr
      rw [hR]
      have hq : (pendTop.enumFrom 1).get? i = some (1 + i, x) := by
        rw [enumFrom_get?, List.get?_eq_get hi_pt]
        rfl
      have hmemR : (1 + i, x) ∈ pendTop.enumFrom 1 := List.get?_mem hq
      have : ((1 + i, x).1, (1 + i, x).2.2) ∈
          (pendTop.enumFrom 1).map (fun y => (y.1, y.2.2)) :=
        List.mem_map.mpr ⟨(1 + i, x), hmemR, rfl⟩
      simpa [Nat.add_comm] using this
    rw [hnew, hgetD, hold]
  · -- (c) idempotence
    have hpos2 : ∀ e ∈ (renumberSlots s).dirs, 1 ≤ e.1 := by
      intro e he
      have : e.1 ∈ (renumberSlots s).keys := List.mem_map.mpr ⟨e, he, rfl⟩
      have := hkeys2.mem_iff.mp this
      exact (List.mem_range'_1.mp this).1
    have hlen2 : (renumberSlots s).dirs.length = k := by
      have h1 := hP.length_eq
      have h2 : R.length = k := by
        rw [hR, List.length_map, List.enumFrom_length, hlenPT]
      rw [h1, h2]
    set s2 := renumberSlots s with hs2
    have hsorted2 := sortedSlots_eq hnd2 hg2
    have hms : ((listSlots s2).insertionSort bySlotNum).map Prod.fst =
        List.range' 1 ((listSlots s2).insertionSort bySlotNum).length := by
      rw [hsorted2, List.map_map]
      have hcomp : (Prod.fst ∘ fun e : Nat × SlotDir => (e.1, getRec e.2)) = Prod.fst := rfl
      rw [hcomp]
      have hlen3 : ((s2.dirs.insertionSort byKeyNum).map
          (fun e : Nat × SlotDir => (e.1, getRec e.2))).length = k := by
        rw [List.length_map, (List.perm_insertionSort byKeyNum s2.dirs).length_eq, hlen2]
      rw [hlen3]
      apply eq_of_perm_sorted_key (fun m => m)
      · have p1 : ((s2.dirs.insertionSort byKeyNum).map Prod.fst).Perm s2.keys :=
          (List.perm_insertionSort byKeyNum s2.dirs).map _
        exact p1.trans hkeys2
      · rw [List.pairwise_map]
        exact List.sorted_insertionSort byKeyNum s2.dirs
      · exact (List.pairwise_lt_range' 1 k 1 (by omega)).imp (fun h => le_of_lt h)
      · have h1 : (((s2.dirs.insertionSort byKeyNum).map Prod.fst).map (fun m => m)) =
            (s2.dirs.insertionSort byKeyNum).map Prod.fst := List.map_id' _
        rw [h1]
        exact ((List.perm_insertionSort byKeyNum s2.dirs).map Prod.fst).nodup_iff.mpr hnd2
    cases hemp : (listSlots s2).isEmpty with
    | true =>
      simp only [renumberSlots, hemp, if_pos]
    | false =>
      simp only [renumberSlots, hemp, Bool.false_eq_true]
      rw [if_neg (fun hf => hf)]
      exact foldl_renumberStep_id _ 1 s2 hms

/-- String append is left-cancellative. -/
theorem strAppendCancel (s a b : String) (h : s ++ a = s ++ b) : a = b := by
  have h1 : s.data ++ a.data = s.data ++ b.data := congrArg String.data h
  have h2 := List.append_cancel_left h1
  cases a with
  | mk la =>
    cases b with
    | mk lb => exact congrArg String.mk h2

/-- String append is associative. -/
theorem strAppendAssoc (a b c : String) : a ++ b ++ c = a ++ (b ++ c) := by
  cases a with
  | mk la =>
    cases b with
    | mk lb =>
      cases c with
      | mk lc => exact congrArg String.mk (List.append_assoc la lb lc)

/-- Length of a string append. -/
theorem strLenAppend (a b : String) : (a ++ b).length = a.length + b.length := by
  cases a with
  | mk la =>
    cases b with
    | mk lb => exact List.length_append la lb

/-- A per-path host path differs from the slot directory itself. -/
theorem hostPath_ne_slotDir (slotDir p : String) : slotDir ++ "/" ++ p ≠ slotDir := by
  intro h
  have h1 := congrArg String.length h
  rw [strLenAppend, strLenAppend] at h1
  have h2 : ("/" : String).length = 1 := rfl
  rw [h2] at h1
  omega

/-- Distinct mount path names give distinct host paths. -/
theorem hostPath_inj (slotDir p q : String)
    (h : slotDir ++ "/" ++ p = slotDir ++ "/" ++ q) : p = q :=
  strAppendCancel (slotDir ++ "/") p q h

/-- `mkdir -p` on one path does not touch any other path. -/
theorem mkdirP_state_other (fs : FS) (d q : String) (h : q ≠ d) :
    (fs.mkdirP d).state q = fs.state q := by
  unfold FS.mkdirP
  by_cases hd : fs.state d = .absent
  · rw [if_pos hd]
    exact if_neg h
  · rw [if_neg hd]

/-- Replacing the value at key `k` makes `find?` at `k` return the new value
(when the key occurs). -/
theorem find_map_replace (l : List (String × VolumeMount)) (k : String) (v : VolumeMount)
    (hk : l.any (fun e => e.1 == k) = true) :
    (l.map (fun e => if e.1 = k then (e.1, v) else e)).find? (fun e => decide (e.1 = k)) =
      some (k, v) := by
  induction l with
  | nil => simp at hk
  | cons e t ih =>
    rw [List.map_cons]
    by_cases he : e.1 = k
    · rw [if_pos he]
      rw [List.find?_cons_of_pos _ (by simp [he])]
      rw [he]
    · rw [if_neg he]
      rw [List.find?_cons_of_neg _ (by simp [he])]
      apply ih
      rcases List.any_eq_true.mp hk with ⟨x, hx, hxk⟩
      rcases List.mem_cons.mp hx with h1 | h2
      · simp only [beq_iff_eq] at hxk
        rw [h1] at hxk
        exact absurd hxk he
      · exact List.any_eq_true.mpr ⟨x, h2, hxk⟩

/-- Replacing the value at key `k` does not change `find?` at another key. -/
theorem find_map_replace_other (l : List (String × VolumeMount)) (k k2 : String)
    (v : VolumeMount) (h : k2 ≠ k) :
    (l.map (fun e => if e.1 = k then (e.1, v) else e)).find? (fun e => decide (e.1 = k2)) =
      l.find? (fun e => decide (e.1 = k2)) := by
  induction l with
  | nil => rfl
  | cons e t ih =>
    rw [List.map_cons]
    by_cases he : e.1 = k
    · have hne : ¬ (e.1 = k2) := fun hh => h (by rw [← hh, he])
      rw [if_pos he]
      rw [List.find?_cons_of_neg _ (by simp [hne]), List.find?_cons_of_neg _ (by simp [hne])]
      exact ih
    · rw [if_neg he]
      by_cases he2 : e.1 = k2
      · rw [List.find?_cons_of_pos _ (by simp [he2]), List.find?_cons_of_pos _ (by simp [he2])]
      · rw [List.find?_cons_of_neg _ (by simp [he2]), List.find?_cons_of_neg _ (by simp [he2])]
        exact ih

/-- After a dict assignment, `find?` at the assigned key returns the new value. -/
theorem dictInsert_find_self (l : List (String × VolumeMount)) (k : String) (v : VolumeMount) :
    (dictInsert l k v).find? (fun e => decide (e.1 = k)) = some (k, v) := by
  unfold dictInsert
  by_cases hk : l.any (fun e => e.1 == k) = true
  · rw [if_pos hk]
    exact find_map_replace l k v hk
  · rw [if_neg hk]
    rw [List.find?_append]
    have hnone : l.find? (fun e => decide (e.1 = k)) = none := by
      apply List.find?_eq_none.mpr
      intro x hx
      simp only [decide_eq_true_eq]
      intro hxe
      exact hk (List.any_eq_true.mpr ⟨x, hx, by simp [hxe]⟩)
    rw [hnone]
    simp [List.find?]

/-- A dict assignment does not change `find?` at another key. -/
theorem dictInsert_find_other (l : List (String × VolumeMount)) (k k2 : String)
    (v : VolumeMount) (h : k2 ≠ k) :
    (dictInsert l k v).find? (fun e => decide (e.1 = k2)) =
      l.find? (fun e => decide (e.1 = k2)) := by
  unfold dictInsert
  by_cases hk : l.any (fun e => e.1 == k) = true
  · rw [if_pos hk]
    exact find_map_replace_other l k k2 v h
  · rw [if_neg hk]
    rw [List.find?_append]
    cases hf : l.find? (fun e => decide (e.1 = k2)) with
    | some x => rfl
    | none =>
      have : ([(k, v)].find? (fun e => decide (e.1 = k2))) = none := by
        simp [List.find?, Ne.symm h]
      rw [this]
      rfl

/-- A dict assignment keeps the key list duplicate-free. -/
theorem dictInsert_keys_nodup (l : List (String × VolumeMount)) (k : String) (v : VolumeMount)
    (h : (l.map Prod.fst).Nodup) : ((dictInsert l k v).map Prod.fst).Nodup := by
  unfold dictInsert
  by_cases hk : l.any (fun e => e.1 == k) = true
  · rw [if_pos hk]
    have hc : (Prod.fst ∘ fun e : String × VolumeMount => if e.1 = k then (e.1, v) else e) =
        Prod.fst := by
      funext e
      by_cases he : e.1 = k <;> simp [he]
    rw [List.map_map, hc]
    exact h
  · rw [if_neg hk]
    rw [List.map_append]
    have hmem : k ∉ l.map Prod.fst := by
      intro hm
      rcases List.mem_map.mp hm with ⟨e, he, hek⟩
      exact hk (List.any_eq_true.mpr ⟨e, he, by simp [hek]⟩)
    refine List.nodup_append.mpr ⟨h, List.nodup_singleton k, ?_⟩
    intro a ha hb
    rw [List.mem_singleton.mp hb] at ha
    exact hmem ha

/-- One iteration of the `prepare_volumes` path loop: the host path ends in
`pathOutcome` of its prior state, no other path changes, and the mount dict
gains (or refreshes) the entry exactly when `pathMounted` holds. -/
theorem processMountPath_step (slotDir p : String) (fs : FS)
    (vols : List (String × VolumeMount)) :
    (processMountPath slotDir (fs, vols) p).1.state (slotDir ++ "/" ++ p) =
      pathOutcome (fs.state (slotDir ++ "/" ++ p)) (pyHasSuffix (slotDir ++ "/" ++ p)) ∧
    (∀ q, q ≠ slotDir ++ "/" ++ p →
      (processMountPath slotDir (fs, vols) p).1.state q = fs.state q) ∧
    (processMountPath slotDir (fs, vols) p).2 =
      (if pathMounted (fs.state (slotDir ++ "/" ++ p)) (pyHasSuffix (slotDir ++ "/" ++ p)) = true
       then dictInsert vols (slotDir ++ "/" ++ p) ⟨"/home/aibox/" ++ p, "rw"⟩
       else vols) := by
  cases ht : fs.state (slotDir ++ "/" ++ p) with
  | absent =>
    cases hs : pyHasSuffix (slotDir ++ "/" ++ p) with
    | false =>
      refine ⟨?_, ?_, ?_⟩
      · simp [processMountPath, FS.mkdirP, pathOutcome, ht, hs]
      · intro q hq
        simp [processMountPath, FS.mkdirP, ht, hs, hq]
      · simp [processMountPath, FS.mkdirP, pathMounted, pathOutcome, ht, hs]
    | true =>
      refine ⟨?_, ?_, ?_⟩
      · simp [processMountPath, ht, hs, pathOutcome]
      · intro q hq
        simp [processMountPath, ht, hs]
      · simp [processMountPath, pathMounted, pathOutcome, ht, hs]
  | dir w ok =>
    cases w <;> cases ok <;> refine ⟨?_, ?_, ?_⟩ <;>
      first
        | (intro q hq
           simp [processMountPath, FS.mkdirP, ht, hq, pathOutcome, pathMounted])
        | simp [processMountPath, FS.mkdirP, ht, pathOutcome, pathMounted]
  | file rw ok =>
    cases rw <;> cases ok <;> refine ⟨?_, ?_, ?_⟩ <;>
      first
        | (intro q hq
           simp [processMountPath, FS.mkdirP, ht, hq, pathOutcome, pathMounted])
        | simp [processMountPath, FS.mkdirP, ht, pathOutcome, pathMounted]

/-- Invariant of the `prepare_volumes` path loop: each listed path ends in its
`pathOutcome`, untouched paths keep their state, mount lookups at listed paths
follow `pathMounted`, lookups at other keys are unchanged, and key uniqueness
is preserved. -/
theorem fold_mount_spec (slotDir : String) (ps : List String) :
    ∀ (fs : FS) (vols : List (String × VolumeMount)), ps.Nodup →
      (∀ q, (∀ p ∈ ps, q ≠ slotDir ++ "/" ++ p) →
        (ps.foldl (processMountPath slotDir) (fs, vols)).1.state q = fs.state q) ∧
      (∀ p ∈ ps,
        (ps.foldl (processMountPath slotDir) (fs, vols)).1.state (slotDir ++ "/" ++ p) =
          pathOutcome (fs.state (slotDir ++ "/" ++ p)) (pyHasSuffix (slotDir ++ "/" ++ p))) ∧
      (∀ k, (∀ p ∈ ps, k ≠ slotDir ++ "/" ++ p) →
        (ps.foldl (processMountPath slotDir) (fs, vols)).2.find? (fun e => decide (e.1 = k)) =
          vols.find? (fun e => decide (e.1 = k))) ∧
      (∀ p ∈ ps,
        (ps.foldl (processMountPath slotDir) (fs, vols)).2.find?
            (fun e => decide (e.1 = slotDir ++ "/" ++ p)) =
          (if pathMounted (fs.state (slotDir ++ "/" ++ p))
              (pyHasSuffix (slotDir ++ "/" ++ p)) = true
           then some (slotDir ++ "/" ++ p, ⟨"/home/aibox/" ++ p, "rw"⟩)
           else vols.find? (fun e => decide (e.1 = slotDir ++ "/" ++ p)))) ∧
      ((vols.map Prod.fst).Nodup →
        ((ps.foldl (processMountPath slotDir) (fs, vols)).2.map Prod.fst).Nodup) := by
  induction ps with
  | nil =>
    intro fs vols _
    exact ⟨fun q _ => rfl, fun p hp => absurd hp (List.not_mem_nil p),
      fun k _ => rfl, fun p hp => absurd hp (List.not_mem_nil p), fun h => h⟩
  | cons a t ih =>
    intro fs vols hnd
    obtain ⟨hat, hndt⟩ := List.nodup_cons.mp hnd
    obtain ⟨hself, hother, hvols⟩ := processMountPath_step slotDir a fs vols
    have hfold : (a :: t).foldl (processMountPath slotDir) (fs, vols) =
        t.foldl (processMountPath slotDir)
          ((processMountPath slotDir (fs, vols) a).1,
           (processMountPath slotDir (fs, vols) a).2) := rfl
    obtain ⟨ih1, ih2, ih3, ih4, ih5⟩ :=
      ih (processMountPath slotDir (fs, vols) a).1 (processMountPath slotDir (fs, vols) a).2 hndt
    have haneq : ∀ p2 ∈ t, slotDir ++ "/" ++ a ≠ slotDir ++ "/" ++ p2 := by
      intro p2 hp2 hh
      exact hat (by rw [hostPath_inj slotDir a p2 hh]; exact hp2)
    refine ⟨?_, ?_, ?_, ?_, ?_⟩
    · intro q hq
      rw [hfold]
      rw [ih1 q (fun p2 hp2 => hq p2 (List.mem_cons_of_mem a hp2))]
      exact hother q (hq a (List.mem_cons_self a t))
    · intro p hp
      rcases List.mem_cons.mp hp with h1 | h2
      · subst h1
        rw [hfold]
        rw [ih1 (slotDir ++ "/" ++ p) (haneq)]
        exact hself
      · rw [hfold]
        rw [ih2 p h2]
        rw [hother (slotDir ++ "/" ++ p)
          (fun hh => hat (by rw [← hostPath_inj slotDir p a hh]; exact h2))]
    · intro k hk
      rw [hfold]
      rw [ih3 k (fun p2 hp2 => hk p2 (List.mem_cons_of_mem a hp2))]
      rw [hvols]
      by_cases hm : pathMounted (fs.state (slotDir ++ "/" ++ a))
          (pyHasSuffix (slotDir ++ "/" ++ a)) = true
      · rw [if_pos hm]
        exact dictInsert_find_other vols (slotDir ++ "/" ++ a) k _ (hk a (List.mem_cons_self a t))
      · rw [if_neg hm]
    · intro p hp
      rcases List.mem_cons.mp hp with h1 | h2
      · subst h1
        rw [hfold]
        rw [ih3 (slotDir ++ "/" ++ p) haneq]
        rw [hvols]
        by_cases hm : pathMounted (fs.state (slotDir ++ "/" ++ p))
            (pyHasSuffix (slotDir ++ "/" ++ p)) = true
        · rw [if_pos hm, if_pos hm]
          exact dictInsert_find_self vols (slotDir ++ "/" ++ p) _
        · rw [if_neg hm, if_neg hm]
      · rw [hfold]
        rw [ih4 p h2]
        have hne : slotDir ++ "/" ++ p ≠ slotDir ++ "/" ++ a :=
          fun hh => hat (by rw [← hostPath_inj slotDir p a hh]; exact h2)
        rw [hother (slotDir ++ "/" ++ p) hne]
        rw [hvols]
        by_cases hm : pathMounted (fs.state (slotDir ++ "/" ++ a))
            (pyHasSuffix (slotDir ++ "/" ++ a)) = true
        · rw [if_pos hm]
          by_cases hm2 : pathMounted (fs.state (slotDir ++ "/" ++ p))
              (pyHasSuffix (slotDir ++ "/" ++ p)) = true
          · rw [if_pos hm2, if_pos hm2]
          · rw [if_neg hm2, if_neg hm2]
            exact dictInsert_find_other vols (slotDir ++ "/" ++ a) (slotDir ++ "/" ++ p) _ hne
        · rw [if_neg hm]
    · intro hvn
      rw [hfold]
      apply ih5
      rw [hvols]
      by_cases hm : pathMounted (fs.state (slotDir ++ "/" ++ a))
          (pyHasSuffix (slotDir ++ "/" ++ a)) = true
      · rw [if_pos hm]
        exact dictInsert_keys_nodup vols (slotDir ++ "/" ++ a) _ hvn
      · rw [if_neg hm]
        exact hvn

/-- The custom-mount pass does not change `find?` at a key that is not a
custom mount source. -/
theorem customFold_find (fs1 : FS) (cms : List MountConfig) :
    ∀ (vs : List (String × VolumeMount)) (k : String), (∀ m ∈ cms, m.source ≠ k) →
      (cms.foldl (fun vs m =>
          if m.mode = "ro" ∧ fs1.state m.source = .absent then vs
          else dictInsert vs m.source ⟨m.target, m.mode⟩) vs).find?
          (fun e => decide (e.1 = k)) =
        vs.find? (fun e => decide (e.1 = k)) := by
  induction cms with
  | nil => intro vs k _; rfl
  | cons m t ih =>
    intro vs k hk
    rw [List.foldl_cons]
    rw [ih _ k (fun m2 hm2 => hk m2 (List.mem_cons_of_mem m hm2))]
    by_cases hskip : m.mode = "ro" ∧ fs1.state m.source = .absent
    · rw [if_pos hskip]
    · rw [if_neg hskip]
      exact dictInsert_find_other vs m.source k _ (hk m (List.mem_cons_self m t)).symm

/-- The custom-mount pass keeps the mount keys duplicate-free. -/
theorem customFold_nodup (fs1 : FS) (cms : List MountConfig) :
    ∀ vs : List (String × VolumeMount), (vs.map Prod.fst).Nodup →
      ((cms.foldl (fun vs m =>
          if m.mode = "ro" ∧ fs1.state m.source = .absent then vs
          else dictInsert vs m.source ⟨m.target, m.mode⟩) vs).map Prod.fst).Nodup := by
  induction cms with
  | nil => intro vs h; exact h
  | cons m t ih =>
    intro vs h
    rw [List.foldl_cons]
    apply ih
    by_cases hskip : m.mode = "ro" ∧ fs1.state m.source = .absent
    · rw [if_pos hskip]; exact h
    · rw [if_neg hskip]; exact dictInsert_keys_nodup vs m.source _ h

/-- C8: for distinct declared configuration paths (none colliding with the
project workspace mount, a custom mount source, or the Claude special-case
record path), `prepare_volumes` leaves each host path
`<slot-dir>/<path>` in the state `pathOutcome` describes — a missing
directory-like path is created, a missing file-like path is never created —
the returned dict has duplicate-free keys (so at most one mount per host
path), and the lookup at each host path yields the read-write bind to
`/home/aibox/<path>` exactly when the path exists (and is usable) on the host
after this step, and is omitted otherwise. -/
theorem prepare_volumes_spec (home storageDir projectDir : String) (slotNumber : Nat)
    (providerName : String) (mountPaths : List String) (customMounts : List MountConfig)
    (fs : FS) (hnd : mountPaths.Nodup)
    (hcl : ".claude/.claude.json" ∉ mountPaths)
    (hproj : ∀ p ∈ mountPaths,
      slotDirPath home storageDir slotNumber ++ "/" ++ p ≠ projectDir)
    (hcm : ∀ m ∈ customMounts, ∀ p ∈ mountPaths,
      m.source ≠ slotDirPath home storageDir slotNumber ++ "/" ++ p) :
    (((prepareVolumes home storageDir projectDir slotNumber providerName mountPaths
        customMounts fs).2).map Prod.fst).Nodup ∧
    ∀ p ∈ mountPaths,
      (prepareVolumes home storageDir projectDir slotNumber providerName mountPaths
          customMounts fs).1.state (slotDirPath home storageDir slotNumber ++ "/" ++ p) =
        pathOutcome (fs.state (slotDirPath home storageDir slotNumber ++ "/" ++ p))
          (pyHasSuffix (slotDirPath home storageDir slotNumber ++ "/" ++ p)) ∧
      (prepareVolumes home storageDir projectDir slotNumber providerName mountPaths
          customMounts fs).2.find?
          (fun e => decide (e.1 = slotDirPath home storageDir slotNumber ++ "/" ++ p)) =
        (if pathMounted (fs.state (slotDirPath home storageDir slotNumber ++ "/" ++ p))
            (pyHasSuffix (slotDirPath home storageDir slotNumber ++ "/" ++ p)) = true
         then some (slotDirPath home storageDir slotNumber ++ "/" ++ p,
           ⟨"/home/aibox/" ++ p, "rw"⟩)
         else none) := by
  set slotDir := slotDirPath home storageDir slotNumber with hsd
  set acc := mountPaths.foldl (processMountPath slotDir)
    (fs.mkdirP slotDir, [(projectDir, ⟨"/workspace", "rw"⟩)]) with hacc
  have h1 : (prepareVolumes home storageDir projectDir slotNumber providerName mountPaths
      customMounts fs).1 = acc.1 := rfl
  have h2 : (prepareVolumes home storageDir projectDir slotNumber providerName mountPaths
      customMounts fs).2 =
      customMounts.foldl
        (fun vs m => if m.mode = "ro" ∧ acc.1.state m.source = .absent then vs
          else dictInsert vs m.source ⟨m.target, m.mode⟩)
        (if providerName = "claude" then
          (if acc.1.state (slotDir ++ "/.claude/.claude.json") ≠ .absent then
            dictInsert acc.2 (slotDir ++ "/.claude/.claude.json")
              ⟨"/home/aibox/.claude.json", "rw"⟩
          else acc.2)
         else acc.2) := rfl
  obtain ⟨F1, F2, F3, F4, F5⟩ := fold_mount_spec slotDir mountPaths (fs.mkdirP slotDir)
    [(projectDir, ⟨"/workspace", "rw"⟩)] hnd
  rw [← hacc] at F1 F2 F3 F4 F5
  have hvn1 : (acc.2.map Prod.fst).Nodup := F5 (by simp)
  have hvn2 : (((if providerName = "claude" then
      (if acc.1.state (slotDir ++ "/.claude/.claude.json") ≠ .absent then
        dictInsert acc.2 (slotDir ++ "/.claude/.claude.json")
          ⟨"/home/aibox/.claude.json", "rw"⟩
      else acc.2)
     else acc.2)).map Prod.fst).Nodup := by
    by_cases hpc : providerName = "claude"
    · rw [if_pos hpc]
      by_cases hcj : acc.1.state (slotDir ++ "/.claude/.claude.json") ≠ .absent
      · rw [if_pos hcj]
        exact dictInsert_keys_nodup acc.2 _ _ hvn1
      · rw [if_neg hcj]
        exact hvn1
    · rw [if_neg hpc]
      exact hvn1
  constructor
  · rw [h2]
    exact customFold_nodup acc.1 customMounts _ hvn2
  · intro p hp
    have hne_sd : slotDir ++ "/" ++ p ≠ slotDir := hostPath_ne_slotDir slotDir p
    have hfs0 : (fs.mkdirP slotDir).state (slotDir ++ "/" ++ p) =
        fs.state (slotDir ++ "/" ++ p) := mkdirP_state_other fs slotDir _ hne_sd
    constructor
    · rw [h1, F2 p hp, hfs0]
    · rw [h2]
      have hck : ∀ m ∈ customMounts, m.source ≠ slotDir ++ "/" ++ p :=
        fun m hm => hcm m hm p hp
      rw [customFold_find acc.1 customMounts _ (slotDir ++ "/" ++ p) hck]
      have hcjne : slotDir ++ "/.claude/.claude.json" ≠ slotDir ++ "/" ++ p := by
        intro hh
        have e1 : ("/.claude/.claude.json" : String) = "/" ++ ".claude/.claude.json" := by
          decide
        have hsplit : slotDir ++ "/.claude/.claude.json" =
            slotDir ++ "/" ++ ".claude/.claude.json" := by
          rw [strAppendAssoc, ← e1]
        rw [hsplit] at hh
        have h3 := hostPath_inj slotDir ".claude/.claude.json" p hh
        exact hcl (by rw [h3]; exact hp)
      have hfind2 : (if providerName = "claude" then
          (if acc.1.state (slotDir ++ "/.claude/.claude.json") ≠ .absent then
            dictInsert acc.2 (slotDir ++ "/.claude/.claude.json")
              ⟨"/home/aibox/.claude.json", "rw"⟩
          else acc.2)
         else acc.2).find? (fun e => decide (e.1 = slotDir ++ "/" ++ p)) =
          acc.2.find? (fun e => decide (e.1 = slotDir ++ "/" ++ p)) := by
        by_cases hpc : providerName = "claude"
        · rw [if_pos hpc]
          by_cases hcj : acc.1.state (slotDir ++ "/.claude/.claude.json") ≠ .absent
          · rw [if_pos hcj]
            exact dictInsert_find_other acc.2 _ _ _ hcjne.symm
          · rw [if_neg hcj]
        · rw [if_neg hpc]
      rw [hfind2]
      rw [F4 p hp]
      rw [hfs0]
      by_cases hm : pathMounted (fs.state (slotDir ++ "/" ++ p))
          (pyHasSuffix (slotDir ++ "/" ++ p)) = true
      · rw [if_pos hm, if_pos hm]
      · rw [if_neg hm, if_neg hm]
        have hpd : ¬ (projectDir = slotDir ++ "/" ++ p) := fun hh => (hproj p hp) hh.symm
        simp [List.find?, hpd]

/-- Witness for C8 with the Claude provider, its two configuration paths, and
an initially empty host filesystem. -/
theorem prepare_volumes_spec_witness :
    (((prepareVolumes "/h" "pstore" "/proj" 1 "claude" [".claude", ".claude.json"]
        [] ⟨fun _ => .absent⟩).2).map Prod.fst).Nodup ∧
    ∀ p ∈ [".claude", ".claude.json"],
      (prepareVolumes "/h" "pstore" "/proj" 1 "claude" [".claude", ".claude.json"]
          [] ⟨fun _ => .absent⟩).1.state (slotDirPath "/h" "pstore" 1 ++ "/" ++ p) =
        pathOutcome ((⟨fun _ => .absent⟩ : FS).state (slotDirPath "/h" "pstore" 1 ++ "/" ++ p))
          (pyHasSuffix (slotDirPath "/h" "pstore" 1 ++ "/" ++ p)) ∧
      (prepareVolumes "/h" "pstore" "/proj" 1 "claude" [".claude", ".claude.json"]
          [] ⟨fun _ => .absent⟩).2.find?
          (fun e => decide (e.1 = slotDirPath "/h" "pstore" 1 ++ "/" ++ p)) =
        (if pathMounted ((⟨fun _ => .absent⟩ : FS).state
              (slotDirPath "/h" "pstore" 1 ++ "/" ++ p))
            (pyHasSuffix (slotDirPath "/h" "pstore" 1 ++ "/" ++ p)) = true
         then some (slotDirPath "/h" "pstore" 1 ++ "/" ++ p, ⟨"/home/aibox/" ++ p, "rw"⟩)
         else none) :=
  prepare_volumes_spec "/h" "pstore" "/proj" 1 "claude" [".claude", ".claude.json"] []
    ⟨fun _ => .absent⟩ (by decide) (by decide) (by decide) (by decide)

/-- Sorting is invariant under permutation of the input. -/
theorem pySortedStrings_perm_eq (l1 l2 : List String) (h : l1.Perm l2) :
    pySortedStrings l1 = pySortedStrings l2 := by
  unfold pySortedStrings
  have hperm : (l1.insertionSort pyLe).Perm (l2.insertionSort pyLe) :=
    (List.perm_insertionSort pyLe l1).trans
      (h.trans (List.perm_insertionSort pyLe l2).symm)
  exact List.eq_of_perm_of_sorted hperm (List.sorted_insertionSort pyLe l1)
    (List.sorted_insertionSort pyLe l2)

/-- `beBytes` always produces the requested number of bytes. -/
theorem beBytes_length : ∀ (k n : Nat), (beBytes k n).length = k := by
  intro k
  induction k with
  | zero => intro n; rfl
  | succ k2 ih =>
    intro n
    show (beBytes k2 (n / 256) ++ [n % 256]).length = k2 + 1
    rw [List.length_append, ih]
    rfl

/-- One compression step returns eight hash words. -/
theorem processBlock_length (hs block : List Nat) : (processBlock hs block).length = 8 := rfl

/-- The compression fold keeps eight hash words. -/
theorem foldl_processBlock_length : ∀ (bs : List (List Nat)) (hs : List Nat),
    hs.length = 8 → (bs.foldl processBlock hs).length = 8 := by
  intro bs
  induction bs with
  | nil => intro hs h; exact h
  | cons b t ih => intro hs _; exact ih (processBlock hs b) (processBlock_length hs b)

/-- Serializing hash words gives four bytes per word. -/
theorem flatten_map_beBytes4_length :
    ∀ l : List Nat, ((l.map (beBytes 4)).flatten).length = 4 * l.length := by
  intro l
  induction l with
  | nil => rfl
  | cons a t ih =>
    rw [List.map_cons, List.flatten_cons, List.length_append, ih, beBytes_length]
    simp only [List.length_cons]
    omega

/-- A SHA-256 digest is 32 bytes, whatever the message. -/
theorem sha256Bytes_length (msg : List Nat) : (sha256Bytes msg).length = 32 := by
  unfold sha256Bytes
  rw [flatten_map_beBytes4_length, foldl_processBlock_length _ sha256IV rfl]

/-- Hex pretty-printing gives two characters per byte. -/
theorem flatten_map_byteHex_length :
    ∀ l : List Nat, ((l.map byteHexChars).flatten).length = 2 * l.length := by
  intro l
  induction l with
  | nil => rfl
  | cons a t ih =>
    rw [List.map_cons, List.flatten_cons, List.length_append, ih]
    rw [show (byteHexChars a).length = 2 from rfl]
    simp only [List.length_cons]
    omega

/-- A hex digit character always comes from the hex alphabet. -/
theorem hexChar_mem (n : Nat) : hexChar n ∈ "0123456789abcdef".toList := by
  unfold hexChar
  by_cases h : n < ("0123456789abcdef".toList).length
  · rw [List.getD_eq_get _ _ h]
    exact List.get_mem _ n h
  · rw [List.getD_eq_default _ _ (Nat.le_of_not_lt h)]
    decide

/-- The base image hash is always 12 characters long. -/
theorem generateBaseImageHash_length (d b : String) (ps : List String) :
    (generateBaseImageHash d b ps).length = 12 := by
  simp only [generateBaseImageHash]
  have hmk : ∀ l : List Char, (String.mk l).length = l.length := fun l => rfl
  rw [hmk, List.length_take, flatten_map_byteHex_length, sha256Bytes_length]
  decide

/-- Characters of a truncated hex dump come from the hex alphabet. -/
theorem hexOfBytes_chars (bytes : List Nat) (c : Char)
    (hc : c ∈ (String.mk (((bytes.map byteHexChars).flatten).take 12)).toList) :
    c ∈ "0123456789abcdef".toList := by
  have hc1 : c ∈ ((bytes.map byteHexChars).flatten).take 12 := hc
  have hc2 := List.take_subset 12 _ hc1
  rcases List.mem_flatten.mp hc2 with ⟨chunk, hchunk, hcchunk⟩
  rcases List.mem_map.mp hchunk with ⟨byte, _, hbyte⟩
  rw [← hbyte] at hcchunk
  rw [show byteHexChars byte = [hexChar (byte / 16), hexChar (byte % 16)] from rfl] at hcchunk
  rcases List.mem_cons.mp hcchunk with h1 | h2
  · rw [h1]; exact hexChar_mem _
  · rcases List.mem_cons.mp h2 with h1 | h3
    · rw [h1]; exact hexChar_mem _
    · exact absurd h3 (List.not_mem_nil c)

/-- Every character of the base image hash is a lower-case hex digit. -/
theorem generateBaseImageHash_chars (d b : String) (ps : List String) :
    ∀ c ∈ (generateBaseImageHash d b ps).toList, c ∈ "0123456789abcdef".toList := by
  intro c hc
  exact hexOfBytes_chars _ c (by simpa only [generateBaseImageHash] using hc)

/-- C1 (amended): for a fixed Dockerfile body, `_generate_base_image_hash` is
permutation-invariant in the profile spec list (the specs are sorted before
hashing), deterministic, and always returns 12 lower-case hex characters; but
on the Start path the Dockerfile body itself is generated from the profiles in
configuration order, so the end-to-end fingerprint is not order-independent
(see the counterexample). -/
theorem generate_base_image_hash_spec (d b : String) (p1 p2 : List String)
    (h : p1.Perm p2) :
    generateBaseImageHash d b p1 = generateBaseImageHash d b p2 ∧
    (generateBaseImageHash d b p1).length = 12 ∧
    ∀ c ∈ (generateBaseImageHash d b p1).toList, c ∈ "0123456789abcdef".toList := by
  refine ⟨?_, generateBaseImageHash_length d b p1, generateBaseImageHash_chars d b p1⟩
  simp only [generateBaseImageHash]
  rw [pySortedStrings_perm_eq p1 p2 h]

/-- Witness for the amended C1 at a concrete swapped pair of profile specs. -/
theorem generate_base_image_hash_spec_witness :
    (generateBaseImageHash "FROM debian" "debian" ["b:1", "a:1"] =
      generateBaseImageHash "FROM debian" "debian" ["a:1", "b:1"]) ∧
    (generateBaseImageHash "FROM debian" "debian" ["b:1", "a:1"]).length = 12 ∧
    ∀ c ∈ (generateBaseImageHash "FROM debian" "debian" ["b:1", "a:1"]).toList,
      c ∈ "0123456789abcdef".toList :=
  generate_base_image_hash_spec "FROM debian" "debian" ["b:1", "a:1"] ["a:1", "b:1"]
    (List.Perm.swap "a:1" "b:1" [])

set_option maxRecDepth 200000 in
set_option maxHeartbeats 4000000 in
/-- The Start-path fingerprint of the alpha-then-beta configuration, computed
to a literal (matches `hashlib.sha256(...).hexdigest()[:12]` on the same
input). -/
theorem config_fingerprint_alpha_beta :
    configBaseFingerprint demoResolve "debian:bookworm-slim" ["alpha:1", "beta:1"] =
      "9de9c4c0f818" := by decide

set_option maxRecDepth 200000 in
set_option maxHeartbeats 4000000 in
/-- The Start-path fingerprint of the beta-then-alpha configuration, computed
to a literal. -/
theorem config_fingerprint_beta_alpha :
    configBaseFingerprint demoResolve "debian:bookworm-slim" ["beta:1", "alpha:1"] =
      "fae0203356b4" := by decide

/-- C1 counterexample: permuting the profile list changes the base fingerprint
computed on the Start path, because the hashed Dockerfile content is generated
from the resolved profiles in configuration order. -/
theorem config_fingerprint_order_dependent_cex :
    (["beta:1", "alpha:1"] : List String).Perm ["alpha:1", "beta:1"] ∧
    configBaseFingerprint demoResolve "debian:bookworm-slim" ["alpha:1", "beta:1"] ≠
      configBaseFingerprint demoResolve "debian:bookworm-slim" ["beta:1", "alpha:1"] :=
  ⟨List.Perm.swap "alpha:1" "beta:1" [],
   fun h => by
     rw [config_fingerprint_alpha_beta, config_fingerprint_beta_alpha] at h
     exact absurd h (by decide)⟩

/-- Witness for C2 at a concrete store holding slots 2 and 10. -/
theorem renumber_slots_spec_witness :
    (∀ m, slotExists (renumberSlots twoDigitStore) m = true ↔
      1 ≤ m ∧ m ≤ twoDigitStore.dirs.length) ∧
    (∀ i, i < twoDigitStore.dirs.length →
      (renumberSlots twoDigitStore).dirOf (i + 1) =
        twoDigitStore.dirOf
          ((twoDigitStore.keys.insertionSort (fun a b => a ≤ b)).getD i 0)) ∧
    renumberSlots (renumberSlots twoDigitStore) = renumberSlots twoDigitStore :=
  renumber_slots_spec twoDigitStore (by decide) (by decide) (by decide)

end Aibox
